import Mathlib

/-!
Verification of the bensor bencode codec (lexer, parser, serializer).

Shallow embedding conventions:
* A Rust byte slice is a `List Nat` of byte values.
* A Rust `String` is modelled by the list of bytes of its UTF-8 encoding
  (a Rust `String` is exactly a UTF-8 byte buffer; `into_bytes`, `as_bytes().len()`
  and `String::cmp` all act on those bytes).  Building a `String` from bytes via
  `b as char` (as the lexer does) is Latin-1 decoding, i.e. each byte is mapped
  to the UTF-8 encoding of the corresponding code point `latin1ToUtf8`.
* `std::collections::HashMap<String, Bencode>` has no observable iteration order
  (the serializer sorts the collected entries before emitting them, and `PartialEq`
  compares the key/value sets); it is modelled by its canonical abstract value:
  the association list of its entries sorted strictly by byte-lexicographic key
  order.  `HashMap::insert` is `dictInsert` on that canonical form.
* Machine integers are `Int`/`Nat` with explicit range checks where Rust's
  `str::parse::<i32>` / `str::parse::<usize>` would overflow.
* Rust panics (out-of-range slice indexing) are an explicit `panic` outcome.
-/

namespace Bensor

/-- Byte-lexicographic strict order on byte lists: the order used by Rust's
`String::cmp` on the underlying UTF-8 bytes (`first_key.cmp(&second_key)` in
`Bencode::into_bytes`). -/
def bytesLt : List Nat → List Nat → Bool
  | [], [] => false
  | [], _ :: _ => true
  | _ :: _, [] => false
  | a :: as, b :: bs => if a < b then true else if b < a then false else bytesLt as bs

theorem bytesLt_irrefl (l : List Nat) : bytesLt l l = false := by
  induction l with
  | nil => rfl
  | cons a as ih => simp [bytesLt, ih]

theorem bytesLt_cons (a b : Nat) (as bs : List Nat) :
    bytesLt (a :: as) (b :: bs)
      = if a < b then true else if b < a then false else bytesLt as bs := rfl

theorem bytesLt_asymm : ∀ {a b : List Nat}, bytesLt a b = true → bytesLt b a = false
  | [], [], h => by simp [bytesLt] at h
  | [], _ :: _, _ => rfl
  | _ :: _, [], h => by simp [bytesLt] at h
  | a :: as, b :: bs, h => by
    rw [bytesLt_cons] at h ⊢
    rcases Nat.lt_trichotomy a b with hab | hab | hab
    · rw [if_neg (by omega), if_pos hab]
    · subst hab
      rw [if_neg (by omega), if_neg (by omega)] at h ⊢
      exact bytesLt_asymm h
    · rw [if_neg (by omega), if_pos hab] at h
      simp at h

theorem bytesLt_trans : ∀ {a b c : List Nat},
    bytesLt a b = true → bytesLt b c = true → bytesLt a c = true
  | [], [], _, h1, _ => by simp [bytesLt] at h1
  | [], _ :: _, [], _, h2 => by simp [bytesLt] at h2
  | [], _ :: _, _ :: _, _, _ => rfl
  | _ :: _, [], _, h1, _ => by simp [bytesLt] at h1
  | _ :: _, _ :: _, [], _, h2 => by simp [bytesLt] at h2
  | a :: as, b :: bs, c :: cs, h1, h2 => by
    rw [bytesLt_cons] at h1 h2 ⊢
    rcases Nat.lt_trichotomy a b with hab | hab | hab
    · rcases Nat.lt_trichotomy b c with hbc | hbc | hbc
      · rw [if_pos (by omega)]
      · subst hbc; rw [if_pos hab]
      · rw [if_neg (by omega), if_pos hbc] at h2; simp at h2
    · subst hab
      rcases Nat.lt_trichotomy a c with hac | hac | hac
      · rw [if_pos hac]
      · subst hac
        rw [if_neg (by omega), if_neg (by omega)] at h1 h2 ⊢
        exact bytesLt_trans h1 h2
      · rw [if_neg (by omega), if_pos hac] at h2; simp at h2
    · rw [if_neg (by omega), if_pos hab] at h1; simp at h1

theorem bytesLt_connex : ∀ {a b : List Nat},
    a ≠ b → bytesLt a b = true ∨ bytesLt b a = true
  | [], [], h => absurd rfl h
  | [], _ :: _, _ => Or.inl rfl
  | _ :: _, [], _ => Or.inr rfl
  | a :: as, b :: bs, h => by
    rcases Nat.lt_trichotomy a b with hab | hab | hab
    · exact Or.inl (by rw [bytesLt_cons, if_pos hab])
    · subst hab
      have htl : as ≠ bs := fun hc => h (by rw [hc])
      rcases bytesLt_connex htl with h1 | h1
      · refine Or.inl ?_
        rw [bytesLt_cons, if_neg (by omega), if_neg (by omega)]
        exact h1
      · refine Or.inr ?_
        rw [bytesLt_cons, if_neg (by omega), if_neg (by omega)]
        exact h1
    · exact Or.inr (by rw [bytesLt_cons, if_pos hab])

/-! ### Decimal formatting (Rust's `format!("{}", n)` and `str_len`) -/

/-- Worker for decimal formatting, structurally recursive on a fuel argument so
that it reduces in the kernel.  With fuel above `n` it produces the decimal
digits (ASCII codes) of `n` in front of `acc`. -/
def natToDecGo : Nat → Nat → List Nat → List Nat
  | 0, _, acc => acc
  | fuel + 1, n, acc =>
    if n < 10 then (48 + n) :: acc else natToDecGo fuel (n / 10) ((48 + n % 10) :: acc)

/-- ASCII decimal representation of a natural number, as produced by Rust's
`format!("{}", n)` for unsigned values. -/
def natToDec (n : Nat) : List Nat := natToDecGo (n + 1) n []

theorem natToDecGo_spec :
    ∀ n : Nat, ∀ fuel : Nat, n < fuel → ∀ acc : List Nat,
      natToDecGo fuel n acc = natToDec n ++ acc := by
  intro n
  induction n using Nat.strong_induction_on with
  | _ n ih =>
    intro fuel hfuel acc
    match fuel with
    | 0 => omega
    | fuel + 1 =>
      by_cases h10 : n < 10
      · simp [natToDecGo, natToDec, h10]
      · have hdiv : n / 10 < n := Nat.div_lt_self (by omega) (by omega)
        simp only [natToDecGo, if_neg h10, natToDec]
        rw [ih (n / 10) hdiv fuel (by omega), ih (n / 10) hdiv n (by omega)]
        simp

/-- Unfolding equation for `natToDec`. -/
theorem natToDec_eq (n : Nat) :
    natToDec n = if n < 10 then [48 + n] else natToDec (n / 10) ++ [48 + n % 10] := by
  by_cases h10 : n < 10
  · simp [natToDec, natToDecGo, h10]
  · have hdiv : n / 10 < n := Nat.div_lt_self (by omega) (by omega)
    simp only [natToDec, natToDecGo, if_neg h10]
    rw [natToDecGo_spec (n / 10) n (by omega) [48 + n % 10]]
    rfl

theorem natToDec_ne_nil (n : Nat) : natToDec n ≠ [] := by
  rw [natToDec_eq]
  split <;> simp

theorem natToDec_digits (n : Nat) : ∀ c ∈ natToDec n, 48 ≤ c ∧ c ≤ 57 := by
  induction n using Nat.strong_induction_on with
  | _ n ih =>
    rw [natToDec_eq]
    by_cases h10 : n < 10
    · simp [h10]; omega
    · have hdiv : n / 10 < n := Nat.div_lt_self (by omega) (by omega)
      simp only [if_neg h10]
      intro c hc
      rcases List.mem_append.mp hc with h | h
      · exact ih _ hdiv c h
      · simp at h
        have : n % 10 < 10 := Nat.mod_lt _ (by omega)
        omega

/-- Numeric value of a list of ASCII decimal digits, as accumulated by Rust's
`str::parse` on a digit string. -/
def digitsVal (cs : List Nat) : Nat := cs.foldl (fun a c => 10 * a + (c - 48)) 0

theorem digitsVal_append_one (l : List Nat) (c : Nat) :
    digitsVal (l ++ [c]) = 10 * digitsVal l + (c - 48) := by
  simp [digitsVal, List.foldl_append]

theorem digitsVal_natToDec (n : Nat) : digitsVal (natToDec n) = n := by
  induction n using Nat.strong_induction_on with
  | _ n ih =>
    rw [natToDec_eq]
    by_cases h10 : n < 10
    · simp [h10, digitsVal]
    · have hdiv : n / 10 < n := Nat.div_lt_self (by omega) (by omega)
      simp only [if_neg h10]
      rw [digitsVal_append_one, ih _ hdiv]
      omega

/-- Rust's `str_len` helper (`format!("{}", d).chars().count()`) for a `usize`. -/
def str_lenN (n : Nat) : Nat := (natToDec n).length

/-- ASCII decimal representation of a signed integer, as produced by Rust's
`format!("{}", n)` for an `i32`/`i64` (`45` is the code of the minus sign). -/
def intToDec (n : Int) : List Nat :=
  if n < 0 then 45 :: natToDec n.natAbs else natToDec n.natAbs

/-- Rust's `str_len` helper for a signed integer. -/
def str_lenI (n : Int) : Nat := (intToDec n).length

theorem intToDec_nonneg (n : Int) (h : 0 ≤ n) : intToDec n = natToDec n.natAbs := by
  simp [intToDec, not_lt.mpr h]

/-! ### Bytes to `char` to `String` (the lexer's `|&c| c as char` collect) -/

/-- UTF-8 bytes of the code point `b` (`b < 256`), i.e. the bytes a Rust `String`
gains when the char `b as char` is pushed onto it. -/
def latin1ToUtf8 (b : Nat) : List Nat :=
  if b < 128 then [b] else [192 + b / 64, 128 + b % 64]

theorem flatMap_latin1_ascii (l : List Nat) (h : ∀ b ∈ l, b < 128) :
    l.flatMap latin1ToUtf8 = l := by
  induction l with
  | nil => rfl
  | cons b bs ih =>
    have hb : b < 128 := h b (by simp)
    have hone : latin1ToUtf8 b = [b] := by simp [latin1ToUtf8, hb]
    rw [List.flatMap_cons, hone, ih (fun x hx => h x (List.mem_cons_of_mem _ hx))]
    rfl

/-! ### Rust's `str::parse` for `i32` and `usize` -/

/-- Is every byte an ASCII decimal digit? -/
def allDigits (cs : List Nat) : Bool := cs.all fun c => decide (48 ≤ c ∧ c ≤ 57)

/-- Shared core of Rust's `str::parse` on a digit run: a non-empty, all-digit
string whose value is below the type's bound. -/
def parseDigits (ds : List Nat) (bound : Nat) : Option Nat :=
  if ds.isEmpty then none
  else if allDigits ds then
    if digitsVal ds < bound then some (digitsVal ds) else none
  else none

/-- Rust's `str::parse::<i32>` acting on the bytes of the string: an optional
leading `+`/`-` sign, then one or more ASCII digits, rejected when the value
overflows the signed 32-bit range. -/
def parseI32 (cs : List Nat) : Option Int :=
  match cs with
  | [] => none
  | c :: ds =>
    if c = 43 then (parseDigits ds (2 ^ 31)).map Int.ofNat
    else if c = 45 then (parseDigits ds (2 ^ 31 + 1)).map fun v => -Int.ofNat v
    else (parseDigits (c :: ds) (2 ^ 31)).map Int.ofNat

/-- Rust's `str::parse::<usize>` (64-bit platform) acting on the bytes of the
string: an optional leading `+`, then one or more ASCII digits, rejected when
the value overflows the unsigned 64-bit range. -/
def parseUsize (cs : List Nat) : Option Nat :=
  match cs with
  | [] => none
  | c :: ds =>
    if c = 43 then parseDigits ds (2 ^ 64)
    else parseDigits (c :: ds) (2 ^ 64)

theorem allDigits_natToDec (n : Nat) : allDigits (natToDec n) = true := by
  simp only [allDigits, List.all_eq_true, decide_eq_true_eq]
  exact natToDec_digits n

theorem parseDigits_natToDec (n bound : Nat) (h : n < bound) :
    parseDigits (natToDec n) bound = some n := by
  simp [parseDigits, List.isEmpty_iff, natToDec_ne_nil, allDigits_natToDec,
    digitsVal_natToDec, h]

theorem parseUsize_natToDec (n : Nat) (h : n < 2 ^ 64) :
    parseUsize (natToDec n) = some n := by
  rcases hnd : natToDec n with _ | ⟨c, ds⟩
  · exact absurd hnd (natToDec_ne_nil n)
  · have hc : 48 ≤ c ∧ c ≤ 57 := natToDec_digits n c (by rw [hnd]; simp)
    simp only [parseUsize, if_neg (by omega : ¬ c = 43)]
    rw [← hnd]
    exact parseDigits_natToDec n _ h

theorem parseI32_intToDec (n : Int) (h1 : -(2 ^ 31) ≤ n) (h2 : n < 2 ^ 31) :
    parseI32 (intToDec n) = some n := by
  by_cases hn : n < 0
  · simp only [intToDec, if_pos hn, parseI32, if_neg (by omega : ¬ (45 : Nat) = 43),
      if_pos rfl, if_true]
    rw [parseDigits_natToDec n.natAbs (2 ^ 31 + 1) (by omega)]
    simp only [Option.map_some', Option.some.injEq, Int.ofNat_eq_natCast]
    omega
  · rcases hnd : natToDec n.natAbs with _ | ⟨c, ds⟩
    · exact absurd hnd (natToDec_ne_nil _)
    · have hc : 48 ≤ c ∧ c ≤ 57 := natToDec_digits _ c (by rw [hnd]; simp)
      rw [intToDec_nonneg n (by omega), hnd]
      simp only [parseI32, if_neg (by omega : ¬ c = 43), if_neg (by omega : ¬ c = 45)]
      rw [← hnd, parseDigits_natToDec n.natAbs (2 ^ 31) (by omega)]
      simp only [Option.map_some', Option.some.injEq, Int.ofNat_eq_natCast]
      omega

/-! ### Canonical decimal strings (for the shift-vs-consumption analysis) -/

/-- A canonical unsigned decimal digit string: non-empty, all digits, and no
leading zero unless it is exactly the single digit `0`. -/
def canonDigits (ds : List Nat) : Bool :=
  match ds with
  | [] => false
  | [c] => decide (48 ≤ c ∧ c ≤ 57)
  | c :: rest => decide (49 ≤ c ∧ c ≤ 57) && allDigits rest

theorem digitsVal_cons (c : Nat) (rest : List Nat) :
    digitsVal (c :: rest) = rest.foldl (fun a d => 10 * a + (d - 48)) (c - 48) := by
  simp [digitsVal]

theorem foldl_digits_ge (rest : List Nat) :
    ∀ a : Nat, a ≤ rest.foldl (fun a d => 10 * a + (d - 48)) a := by
  induction rest with
  | nil => intro a; simp
  | cons d ds ih =>
    intro a
    calc a ≤ 10 * a + (d - 48) := by omega
    _ ≤ _ := ih _

theorem digitsVal_pos (c : Nat) (rest : List Nat) (hc : 49 ≤ c) :
    1 ≤ digitsVal (c :: rest) := by
  rw [digitsVal_cons]
  calc (1 : Nat) ≤ c - 48 := by omega
  _ ≤ _ := foldl_digits_ge rest _

/-- Canonical decimal strings are exactly the output of `natToDec`: decimal
representations without redundant leading zeros are unique. -/
theorem natToDec_digitsVal (ds : List Nat) (h : canonDigits ds = true) :
    natToDec (digitsVal ds) = ds := by
  induction ds using List.reverseRecOn with
  | nil => simp [canonDigits] at h
  | append_singleton init c ih =>
    rcases init with _ | ⟨c0, irest⟩
    · simp only [List.nil_append] at h ⊢
      simp only [canonDigits, decide_eq_true_eq] at h
      have : digitsVal [c] = c - 48 := by simp [digitsVal]
      rw [this, natToDec_eq, if_pos (by omega)]
      congr 1
      omega
    · have hds : (c0 :: irest) ++ [c] = c0 :: (irest ++ [c]) := by simp
      rw [hds] at h
      have hcons : canonDigits (c0 :: (irest ++ [c]))
          = (decide (49 ≤ c0 ∧ c0 ≤ 57) && allDigits (irest ++ [c])) := by
        rcases irest with _ | ⟨i1, irest'⟩ <;> rfl
      rw [hcons] at h
      simp only [Bool.and_eq_true, decide_eq_true_eq, allDigits, List.all_append,
        List.all_cons, List.all_nil] at h
      have hc0 : 49 ≤ c0 ∧ c0 ≤ 57 := h.1
      have hrest : allDigits irest = true := by
        simp only [allDigits]
        exact h.2.1
      have hc : 48 ≤ c ∧ c ≤ 57 := h.2.2.1
      have hinit : canonDigits (c0 :: irest) = true := by
        rcases irest with _ | ⟨i1, irest'⟩
        · simp [canonDigits]; omega
        · simp only [canonDigits, Bool.and_eq_true, decide_eq_true_eq]
          constructor
          · omega
          · exact hrest
      have hpos : 1 ≤ digitsVal (c0 :: irest) := digitsVal_pos c0 irest (by omega)
      rw [digitsVal_append_one, natToDec_eq, if_neg (by cases hc; omega)]
      have hdiv : (10 * digitsVal (c0 :: irest) + (c - 48)) / 10 = digitsVal (c0 :: irest) := by
        cases hc; omega
      have hmod : (10 * digitsVal (c0 :: irest) + (c - 48)) % 10 = c - 48 := by
        cases hc; omega
      rw [hdiv, hmod, ih hinit]
      congr 2
      cases hc; omega

/-! ### The lexer (`src/lexer.rs`) -/

/-- Result of a fallible operation: Rust's `Result` extended with an explicit
`panic` outcome for out-of-range slice indexing. -/
inductive LRes (ε α : Type) where
  | ok (a : α)
  | err (e : ε)
  | panic
deriving DecidableEq

namespace lexer

/-- `lexer::Error` from `src/lexer.rs`. -/
inductive Error where
  | ReadInt
  | ReadLen
  | ReadByteString
  | ReadFirstByte (c : Nat)
  | EmptySlice
deriving DecidableEq

/-- `lexer::Token` from `src/lexer.rs`.  The integer payload is Rust's `i32`
(modelled as `Int`, with the range enforced where tokens are created, in
`read_int`); the byte-string payload is the collected `String`'s UTF-8 bytes. -/
inductive Token where
  | Dictionary
  | List
  | Integer (n : Int)
  | ByteString (s : List Nat)
  | End
deriving DecidableEq

/-- `read_until`: the bytes before the first occurrence of the terminator. -/
def read_until (slice : List Nat) (e : Nat) : List Nat :=
  slice.takeWhile fun c => c != e

theorem read_until_append (l : List Nat) (e : Nat) (rest : List Nat)
    (h : ∀ c ∈ l, c ≠ e) : read_until (l ++ e :: rest) e = l := by
  induction l with
  | nil => simp [read_until]
  | cons c cs ih =>
    have hc : c ≠ e := h c (by simp)
    simp only [read_until, List.cons_append, List.takeWhile_cons] at ih ⊢
    rw [if_pos (by simpa using hc)]
    rw [ih (fun x hx => h x (List.mem_cons_of_mem _ hx))]

/-- `read_int` from `src/lexer.rs`: parse the bytes before the first `'e'`
(byte 101) as an `i32`; a parse failure is `Error::ReadInt`. -/
def read_int (slice : List Nat) : Except Error Int :=
  match parseI32 (read_until slice 101) with
  | some n => .ok n
  | none => .error .ReadInt

/-- `read_len` from `src/lexer.rs`: parse the bytes before the first `':'`
(byte 58) as a `usize`; a parse failure is `Error::ReadLen`. -/
def read_len (slice : List Nat) : Except Error Nat :=
  match parseUsize (read_until slice 58) with
  | some n => .ok n
  | none => .error .ReadLen

/-- `read_byte_string` from `src/lexer.rs`: read the length prefix, then take
the `size` payload bytes at `slice[shift..shift + size]` and collect them into
a `String` one `u8 as char` at a time.  The Rust code performs that slice
indexing without a bounds check, so a declared length that overruns the input
is a panic, not an error. -/
def read_byte_string (slice : List Nat) : LRes Error (List Nat) :=
  match read_len slice with
  | .error _ => .err .ReadByteString
  | .ok size =>
    let shift := str_lenN size + 1
    if shift + size ≤ slice.length then
      .ok (((slice.drop shift).take size).flatMap latin1ToUtf8)
    else .panic

/-- `tokenize` from `src/lexer.rs`: dispatch on the leading byte
(`'d'` = 100, `'l'` = 108, `'e'` = 101, `'i'` = 105, ASCII digits 48-57). -/
def tokenize (slice : List Nat) : LRes Error Token :=
  match slice with
  | [] => .err .EmptySlice
  | b :: rest =>
    if b = 100 then .ok .Dictionary
    else if b = 108 then .ok .List
    else if b = 101 then .ok .End
    else if b = 105 then
      match read_int rest with
      | .ok n => .ok (.Integer n)
      | .error e => .err e
    else if 48 ≤ b ∧ b ≤ 57 then
      match read_byte_string (b :: rest) with
      | .ok s => .ok (.ByteString s)
      | .err e => .err e
      | .panic => .panic
    else .err (.ReadFirstByte b)

/-- `Token::shift` from `src/lexer.rs`: the cursor advance recomputed from the
token — `"i".len() + str_len(num) + "e".len()` for integers, and
`str_len(size) + size + ":".len()` for byte strings, where `size` is
`string.as_bytes().len()`, the UTF-8 byte length of the collected `String`. -/
def Token.shift : Token → Nat
  | .Dictionary | .List | .End => 1
  | .Integer n => 1 + str_lenI n + 1
  | .ByteString s => str_lenN s.length + s.length + 1

theorem Token.shift_pos (t : Token) : 1 ≤ t.shift := by
  cases t <;> simp [Token.shift]

theorem tokenize_nil : tokenize [] = .err .EmptySlice := rfl

/-- `parse` from `src/lexer.rs`: the tokenizing loop.  Each iteration reads one
token from `slice[index..]` and advances the cursor by the token's recomputed
shift; an `EmptySlice` error terminates the loop cleanly with the accumulated
tokens, any other error is returned.  When the recomputed shift advances the
cursor beyond the end of the buffer, the next `&slice[index..]` is a Rust
panic. -/
def parse (slice : List Nat) : LRes Error (List Token) :=
  match h : tokenize slice with
  | .err .EmptySlice => .ok []
  | .err e => .err e
  | .panic => .panic
  | .ok t =>
    if hs : t.shift ≤ slice.length then
      match parse (slice.drop t.shift) with
      | .ok ts => .ok (t :: ts)
      | r => r
    else .panic
termination_by slice.length
decreasing_by
  have hpos := Token.shift_pos t
  have hne : slice ≠ [] := by
    intro hnil
    rw [hnil, tokenize_nil] at h
    exact absurd h (by simp)
  have hlen : 0 < slice.length := List.length_pos.mpr hne
  simp only [List.length_drop]
  omega

theorem parse_eq_empty (slice : List Nat) (h : tokenize slice = .err .EmptySlice) :
    parse slice = .ok [] := by
  rw [parse.eq_def]
  split <;> simp_all

theorem parse_nil : parse [] = .ok [] := parse_eq_empty [] rfl

theorem parse_tok_ok (slice : List Nat) (t : Token) (h : tokenize slice = .ok t)
    (hs : t.shift ≤ slice.length) :
    parse slice = match parse (slice.drop t.shift) with
      | .ok ts => .ok (t :: ts)
      | r => r := by
  rw [parse.eq_def]
  split <;> simp_all

theorem parse_tok_panic (slice : List Nat) (t : Token) (h : tokenize slice = .ok t)
    (hs : slice.length < t.shift) : parse slice = .panic := by
  rw [parse.eq_def]
  split <;> simp_all

theorem parse_eq_err (slice : List Nat) (e : Error) (h : tokenize slice = .err e)
    (he : e ≠ .EmptySlice) : parse slice = .err e := by
  rw [parse.eq_def]
  split <;> simp_all

theorem parse_eq_panic (slice : List Nat) (h : tokenize slice = .panic) :
    parse slice = .panic := by
  rw [parse.eq_def]
  split <;> simp_all

end lexer

/-! ### Dictionary entries: sorting and the canonical `HashMap` model -/

/-- One step of the entry sort: insert `p` into an already sorted run, before
the first entry whose key is not smaller.  `sortEntries` below is a stable
insertion sort by key, the behaviour of the serializer's
`sort_by(|(first_key, _), (second_key, _)| first_key.cmp(&second_key))`. -/
def insEntry {α : Type} (p : List Nat × α) : List (List Nat × α) → List (List Nat × α)
  | [] => [p]
  | q :: qs => if bytesLt q.1 p.1 then q :: insEntry p qs else p :: q :: qs

/-- Sort dictionary entries by byte-lexicographic key order. -/
def sortEntries {α : Type} : List (List Nat × α) → List (List Nat × α)
  | [] => []
  | p :: ps => insEntry p (sortEntries ps)

theorem insEntry_perm {α : Type} (p : List Nat × α) (l : List (List Nat × α)) :
    (insEntry p l).Perm (p :: l) := by
  induction l with
  | nil => exact List.Perm.refl _
  | cons q qs ih =>
    simp only [insEntry]
    split
    · exact (List.Perm.cons q ih).trans (List.Perm.swap p q qs)
    · exact List.Perm.refl _

theorem sortEntries_perm {α : Type} (l : List (List Nat × α)) :
    (sortEntries l).Perm l := by
  induction l with
  | nil => exact List.Perm.refl _
  | cons p ps ih =>
    exact (insEntry_perm p (sortEntries ps)).trans (List.Perm.cons p ih)

theorem perm_sizeOf_eq {α : Type} [SizeOf α] {l1 l2 : List α} (h : l1.Perm l2) :
    sizeOf l1 = sizeOf l2 := by
  induction h with
  | nil => rfl
  | cons x _ ih => simp only [List.cons.sizeOf_spec]; omega
  | swap x y l => simp only [List.cons.sizeOf_spec]; omega
  | trans _ _ ih1 ih2 => omega

/-- `Bencode` from `src/parser.rs`: the recursive value model.  `Integer` holds
Rust's `i64`; `ByteString` holds the `String`'s UTF-8 bytes; `List` is the
`Vec` of nested values; `Dictionary` is the `HashMap<String, Bencode>`
represented canonically as its association list sorted strictly by key. -/
inductive Bencode where
  | Integer (n : Int)
  | ByteString (s : List Nat)
  | List (l : List Bencode)
  | Dictionary (m : List (List Nat × Bencode))

/-- `HashMap::insert` on the canonical sorted-association-list model: replace
the entry with an equal key, or place the new entry at its ordered position. -/
def dictInsert {α : Type} (k : List Nat) (v : α) :
    List (List Nat × α) → List (List Nat × α)
  | [] => [(k, v)]
  | (k2, v2) :: rest =>
    if bytesLt k2 k then (k2, v2) :: dictInsert k v rest
    else if k2 = k then (k, v) :: rest
    else (k, v) :: (k2, v2) :: rest

/-- `HashMap` lookup on the canonical model. -/
def dictLookup {α : Type} (k : List Nat) : List (List Nat × α) → Option α
  | [] => none
  | (k2, v) :: rest => if k2 = k then some v else dictLookup k rest

/-- Building a `HashMap` by repeated `insert` in insertion order, starting from
the map `acc`. -/
def dictFold {α : Type} (acc : List (List Nat × α)) (entries : List (List Nat × α)) :
    List (List Nat × α) :=
  entries.foldl (fun d e => dictInsert e.1 e.2 d) acc

/-- The `HashMap` obtained by inserting the given key/value pairs, in order,
into an empty map. -/
def fromList {α : Type} (entries : List (List Nat × α)) : List (List Nat × α) :=
  dictFold [] entries

mutual

/-- `Bencode::into_bytes` from `src/parser.rs`: `i<dec>e` for integers,
`<len>:<bytes>` for byte strings, `l...e` for lists in order, and `d...e` for
dictionaries with the collected entries sorted by key, each entry emitted as
the length-prefixed key bytes followed by the value's encoding. -/
def Bencode.into_bytes : Bencode → List Nat
  | .Integer n => 105 :: (intToDec n ++ [101])
  | .ByteString s => natToDec s.length ++ 58 :: s
  | .List vec => 108 :: (listBytes vec ++ [101])
  | .Dictionary map => 100 :: (entriesBytes (sortEntries map) ++ [101])
termination_by v => sizeOf v
decreasing_by
  · simp only [Bencode.List.sizeOf_spec]; omega
  · have hp := perm_sizeOf_eq (sortEntries_perm map)
    simp only [Bencode.Dictionary.sizeOf_spec]
    omega

/-- Serialization of the elements of a `List`, in order. -/
def listBytes : List Bencode → List Nat
  | [] => []
  | v :: vs => v.into_bytes ++ listBytes vs
termination_by l => sizeOf l
decreasing_by
  · simp only [List.cons.sizeOf_spec]; omega
  · simp only [List.cons.sizeOf_spec]; omega

/-- Serialization of already-sorted dictionary entries. -/
def entriesBytes : List (List Nat × Bencode) → List Nat
  | [] => []
  | (k, v) :: es => (natToDec k.length ++ 58 :: k) ++ (v.into_bytes ++ entriesBytes es)
termination_by l => sizeOf l
decreasing_by
  · simp only [List.cons.sizeOf_spec, Prod.mk.sizeOf_spec]; omega
  · simp only [List.cons.sizeOf_spec, Prod.mk.sizeOf_spec]; omega

end

/-! ### The parser (`src/parser.rs`) -/

namespace parser

/-- `parser::Error` from `src/parser.rs`. -/
inductive Error where
  | NoTokens
  | InvalidEndToken
  | NoEndList
  | InvalidDictionaryKey
  | NoEndDictionary
deriving DecidableEq

end parser

namespace parser

mutual

/-- `parse_token` from `src/parser.rs`: dispatch on one popped token.  The Rust
code mutates the token stack in place; here the remaining stack is threaded
explicitly, and the returned remainder carries the length bound needed for
termination. -/
def parse_token (t : lexer.Token) (tokens : List lexer.Token) :
    Except Error (Bencode × {r : List lexer.Token // r.length ≤ tokens.length}) :=
  match t with
  | .Dictionary => parse_dict tokens []
  | .List => parse_list tokens []
  | .Integer val => .ok (.Integer val, ⟨tokens, Nat.le_refl _⟩)
  | .ByteString val => .ok (.ByteString val, ⟨tokens, Nat.le_refl _⟩)
  | .End => .error .InvalidEndToken
termination_by 2 * tokens.length + 1
decreasing_by
  · omega
  · omega

/-- `parse_list` from `src/parser.rs`: pop until an `End` token closes the
list; every other token starts a nested value, appended to the accumulator; an
exhausted stack is `NoEndList`. -/
def parse_list (tokens : List lexer.Token) (list : List Bencode) :
    Except Error (Bencode × {r : List lexer.Token // r.length ≤ tokens.length}) :=
  match tokens with
  | .End :: rest => .ok (.List list, ⟨rest, Nat.le_succ _⟩)
  | tok :: rest =>
    match parse_token tok rest with
    | .error e => .error e
    | .ok (v, r) =>
      match parse_list r.val (list ++ [v]) with
      | .error e => .error e
      | .ok (b, r2) => .ok (b, ⟨r2.val, by
          have h1 := r.property
          have h2 := r2.property
          simp only [List.length_cons]
          omega⟩)
  | [] => .error .NoEndList
termination_by 2 * tokens.length
decreasing_by
  · simp only [List.length_cons]; omega
  · have := r.property; simp only [List.length_cons]; omega

/-- `parse_dict` from `src/parser.rs`: pop a key, which must be a `ByteString`
(`End` instead terminates the dictionary; anything else — including an
exhausted stack, caught by the same wildcard arm — is `InvalidDictionaryKey`);
then pop and parse the value token (an exhausted stack at the value position
is `NoEndDictionary`) and insert the pair into the map. -/
def parse_dict (tokens : List lexer.Token) (dict : List (List Nat × Bencode)) :
    Except Error (Bencode × {r : List lexer.Token // r.length ≤ tokens.length}) :=
  match tokens with
  | .ByteString key :: rest =>
    match rest with
    | [] => .error .NoEndDictionary
    | tok :: rest2 =>
      match parse_token tok rest2 with
      | .error e => .error e
      | .ok (v, r) =>
        match parse_dict r.val (dictInsert key v dict) with
        | .error e => .error e
        | .ok (b, r2) => .ok (b, ⟨r2.val, by
            have h1 := r.property
            have h2 := r2.property
            simp only [List.length_cons]
            omega⟩)
  | .End :: rest => .ok (.Dictionary dict, ⟨rest, Nat.le_succ _⟩)
  | _ => .error .InvalidDictionaryKey
termination_by 2 * tokens.length
decreasing_by
  · simp only [List.length_cons]; omega
  · have := r.property; simp only [List.length_cons]; omega

end

/-- `parse` from `src/parser.rs`: reverse the token vector into a pop-from-end
stack — i.e. consume the tokens front to back — parse one value starting at
the first token, and return it (tokens left over after that value are
ignored); an empty token vector is `NoTokens`. -/
def parse (tokens : List lexer.Token) : Except Error Bencode :=
  match tokens with
  | [] => .error .NoTokens
  | t :: rest => (parse_token t rest).map fun p => p.1

end parser

/-- The error of the composed decode pipeline, tagging which stage failed. -/
inductive DecodeError where
  | lexErr (e : lexer.Error)
  | parseErr (e : parser.Error)
deriving DecidableEq

/-- The decode entry point of spec section 6, composing the lexer and the
parser: tokenize the byte buffer, then parse the token sequence. -/
def decode (slice : List Nat) : LRes DecodeError Bencode :=
  match lexer.parse slice with
  | .ok tokens =>
    match parser.parse tokens with
    | .ok v => .ok v
    | .error e => .err (.parseErr e)
  | .err e => .err (.lexErr e)
  | .panic => .panic

/-! ### Token images of values, and well-formedness -/

mutual

/-- The token sequence that a value's canonical encoding tokenizes to (and the
token shape the parser consumes to rebuild the value). -/
def toTokens : Bencode → List lexer.Token
  | .Integer n => [.Integer n]
  | .ByteString s => [.ByteString s]
  | .List l => .List :: (toTokensList l ++ [.End])
  | .Dictionary m => .Dictionary :: (toTokensEntries m ++ [.End])

/-- Token sequences of list elements, concatenated in order. -/
def toTokensList : List Bencode → List lexer.Token
  | [] => []
  | v :: vs => toTokens v ++ toTokensList vs

/-- Token sequences of dictionary entries: each key as a `ByteString` token
followed by the value's tokens. -/
def toTokensEntries : List (List Nat × Bencode) → List lexer.Token
  | [] => []
  | (k, v) :: es => .ByteString k :: (toTokens v ++ toTokensEntries es)

end

/-- The first token of a value's token sequence. -/
def headT : Bencode → lexer.Token
  | .Integer n => .Integer n
  | .ByteString s => .ByteString s
  | .List _ => .List
  | .Dictionary _ => .Dictionary

/-- The remaining tokens of a value's token sequence. -/
def tailT : Bencode → List lexer.Token
  | .Integer _ => []
  | .ByteString _ => []
  | .List l => toTokensList l ++ [.End]
  | .Dictionary m => toTokensEntries m ++ [.End]

theorem toTokens_decomp (v : Bencode) : toTokens v = headT v :: tailT v := by
  cases v <;> simp [toTokens, headT, tailT]

/-- The keys of an entry list are strictly increasing. -/
def keysSortedB {α : Type} : List (List Nat × α) → Bool
  | [] => true
  | [_] => true
  | p :: q :: rest => bytesLt p.1 q.1 && keysSortedB (q :: rest)

mutual

/-- Structural well-formedness for the canonical dictionary model: every
dictionary's entry list is strictly sorted by key (the invariant of the
sorted-association-list representation of a `HashMap`). -/
def wfB : Bencode → Bool
  | .Integer _ => true
  | .ByteString _ => true
  | .List l => wfList l
  | .Dictionary m => keysSortedB m && wfEntries m

/-- All list elements well-formed. -/
def wfList : List Bencode → Bool
  | [] => true
  | v :: vs => wfB v && wfList vs

/-- All dictionary values well-formed. -/
def wfEntries : List (List Nat × Bencode) → Bool
  | [] => true
  | (_, v) :: es => wfB v && wfEntries es

end

/-- An ASCII byte string whose length fits a `usize`. -/
def goodStr (s : List Nat) : Bool :=
  s.all (fun b => decide (b < 128)) && decide (s.length < 2 ^ 64)

mutual

/-- Round-trip well-formedness: dictionaries canonical as in `wfB`, integers
within the lexer token's `i32` range, byte strings and keys ASCII with a
`usize` length. -/
def goodB : Bencode → Bool
  | .Integer n => decide (-(2 ^ 31) ≤ n ∧ n < 2 ^ 31)
  | .ByteString s => goodStr s
  | .List l => goodList l
  | .Dictionary m => keysSortedB m && goodEntries m

/-- All list elements round-trip well-formed. -/
def goodList : List Bencode → Bool
  | [] => true
  | v :: vs => goodB v && goodList vs

/-- All dictionary keys and values round-trip well-formed. -/
def goodEntries : List (List Nat × Bencode) → Bool
  | [] => true
  | (k, v) :: es => goodStr k && goodB v && goodEntries es

end

mutual

theorem goodB_wfB : ∀ v : Bencode, goodB v = true → wfB v = true
  | .Integer n, _ => by simp [wfB]
  | .ByteString s, _ => by simp [wfB]
  | .List l, h => by
    simp only [goodB] at h
    simp only [wfB]
    exact goodList_wfList l h
  | .Dictionary m, h => by
    simp only [goodB, Bool.and_eq_true] at h
    simp only [wfB, Bool.and_eq_true]
    exact ⟨h.1, goodEntries_wfEntries m h.2⟩

theorem goodList_wfList : ∀ l : List Bencode, goodList l = true → wfList l = true
  | [], _ => by simp [wfList]
  | v :: vs, h => by
    simp only [goodList, Bool.and_eq_true] at h
    simp only [wfList, Bool.and_eq_true]
    exact ⟨goodB_wfB v h.1, goodList_wfList vs h.2⟩

theorem goodEntries_wfEntries :
    ∀ es : List (List Nat × Bencode), goodEntries es = true → wfEntries es = true
  | [], _ => by simp [wfEntries]
  | (k, v) :: es, h => by
    simp only [goodEntries, Bool.and_eq_true] at h
    simp only [wfEntries, Bool.and_eq_true]
    exact ⟨goodB_wfB v h.1.2, goodEntries_wfEntries es h.2⟩

end

/-! ### Lemmas about the canonical dictionary model -/

theorem bytesLt_of_not_lt {a b : List Nat} (hne : a ≠ b) (h : ¬ bytesLt b a = true) :
    bytesLt a b = true := by
  rcases bytesLt_connex hne with h1 | h1
  · exact h1
  · exact absurd h1 h

/-- The key ordering relation on entries. -/
def entLt {α : Type} (p q : List Nat × α) : Prop := bytesLt p.1 q.1 = true

theorem keysSortedB_chain {α : Type} :
    ∀ l : List (List Nat × α),
      (keysSortedB l = true ↔ List.Chain' (@entLt α) l)
  | [] => by simp [keysSortedB]
  | [p] => by simp [keysSortedB]
  | p :: q :: rest => by
    simp only [keysSortedB, Bool.and_eq_true, List.chain'_cons]
    constructor
    · rintro ⟨h1, h2⟩
      exact ⟨h1, (keysSortedB_chain (q :: rest)).mp h2⟩
    · rintro ⟨h1, h2⟩
      exact ⟨h1, (keysSortedB_chain (q :: rest)).mpr h2⟩

theorem keysSortedB_pairwise {α : Type} (l : List (List Nat × α)) :
    keysSortedB l = true ↔ List.Pairwise (@entLt α) l := by
  haveI : IsTrans (List Nat × α) entLt := ⟨fun _ _ _ hab hbc => bytesLt_trans hab hbc⟩
  rw [keysSortedB_chain, List.chain'_iff_pairwise]

theorem keysSortedB_tail {α : Type} :
    ∀ {p : List Nat × α} {ps}, keysSortedB (p :: ps) = true → keysSortedB ps = true
  | _, [], _ => rfl
  | _, q :: rest, h => by
    simp only [keysSortedB, Bool.and_eq_true] at h
    exact h.2

theorem mem_dictInsert {α : Type} (k : List Nat) (v : α) :
    ∀ (d : List (List Nat × α)) (p : List Nat × α),
      p ∈ dictInsert k v d → p = (k, v) ∨ p ∈ d
  | [], p, h => by
    simp only [dictInsert, List.mem_singleton] at h
    exact Or.inl h
  | (k2, v2) :: rest, p, h => by
    simp only [dictInsert] at h
    split at h
    · rcases List.mem_cons.mp h with h1 | h1
      · exact Or.inr (by simp [h1])
      · rcases mem_dictInsert k v rest p h1 with h2 | h2
        · exact Or.inl h2
        · exact Or.inr (List.mem_cons_of_mem _ h2)
    · split at h
      · rcases List.mem_cons.mp h with h1 | h1
        · exact Or.inl h1
        · exact Or.inr (List.mem_cons_of_mem _ h1)
      · rcases List.mem_cons.mp h with h1 | h1
        · exact Or.inl h1
        · exact Or.inr h1

theorem dictInsert_pairwise {α : Type} (k : List Nat) (v : α) :
    ∀ d : List (List Nat × α),
      List.Pairwise (@entLt α) d → List.Pairwise (@entLt α) (dictInsert k v d)
  | [], _ => by simp [dictInsert, List.pairwise_cons]
  | (k2, v2) :: rest, h => by
    rw [List.pairwise_cons] at h
    obtain ⟨hhead, htail⟩ := h
    simp only [dictInsert]
    by_cases h21 : bytesLt k2 k = true
    · rw [if_pos h21, List.pairwise_cons]
      refine ⟨?_, dictInsert_pairwise k v rest htail⟩
      intro p hp
      rcases mem_dictInsert k v rest p hp with h1 | h1
      · rw [h1]; exact h21
      · exact hhead p h1
    · rw [if_neg h21]
      by_cases he : k2 = k
      · rw [if_pos he, List.pairwise_cons]
        subst he
        exact ⟨hhead, htail⟩
      · rw [if_neg he, List.pairwise_cons]
        have hk2 : bytesLt k k2 = true := bytesLt_of_not_lt (Ne.symm he) h21
        constructor
        · intro p hp
          rcases List.mem_cons.mp hp with h1 | h1
          · rw [h1]; exact hk2
          · exact bytesLt_trans hk2 (hhead p h1)
        · rw [List.pairwise_cons]
          exact ⟨hhead, htail⟩

theorem dictInsert_append {α : Type} (k : List Nat) (v : α) :
    ∀ d : List (List Nat × α), (∀ p ∈ d, bytesLt p.1 k = true) →
      dictInsert k v d = d ++ [(k, v)]
  | [], _ => rfl
  | (k2, v2) :: rest, h => by
    have hk2 : bytesLt k2 k = true := h (k2, v2) (by simp)
    simp only [dictInsert, hk2, if_true, List.cons_append, List.cons.injEq, true_and]
    exact dictInsert_append k v rest (fun p hp => h p (List.mem_cons_of_mem _ hp))

theorem dictLookup_insert_self {α : Type} (k : List Nat) (v : α) :
    ∀ d : List (List Nat × α), dictLookup k (dictInsert k v d) = some v
  | [] => by simp [dictInsert, dictLookup]
  | (k2, v2) :: rest => by
    simp only [dictInsert]
    by_cases h1 : bytesLt k2 k = true
    · rw [if_pos h1]
      have hne : k2 ≠ k := by
        intro he
        rw [he, bytesLt_irrefl] at h1
        exact absurd h1 (by simp)
      simp only [dictLookup, if_neg hne]
      exact dictLookup_insert_self k v rest
    · rw [if_neg h1]
      by_cases h2 : k2 = k
      · rw [if_pos h2]
        simp [dictLookup]
      · rw [if_neg h2]
        simp [dictLookup]

theorem dictLookup_insert_other {α : Type} (k kq : List Nat) (v : α) (hne : k ≠ kq) :
    ∀ d : List (List Nat × α), dictLookup kq (dictInsert k v d) = dictLookup kq d
  | [] => by simp [dictInsert, dictLookup, hne]
  | (k2, v2) :: rest => by
    simp only [dictInsert]
    by_cases h1 : bytesLt k2 k = true
    · rw [if_pos h1]
      simp only [dictLookup]
      by_cases h2 : k2 = kq
      · rw [if_pos h2, if_pos h2]
      · rw [if_neg h2, if_neg h2]
        exact dictLookup_insert_other k kq v hne rest
    · rw [if_neg h1]
      by_cases h2 : k2 = k
      · rw [if_pos h2]
        subst h2
        simp only [dictLookup, if_neg hne]
      · rw [if_neg h2]
        simp only [dictLookup, if_neg hne]

theorem dictInsert_comm {α : Type} (k1 k2 : List Nat) (v1 v2 : α) (hne : k1 ≠ k2) :
    ∀ d : List (List Nat × α),
      dictInsert k1 v1 (dictInsert k2 v2 d) = dictInsert k2 v2 (dictInsert k1 v1 d)
  | [] => by
    rcases bytesLt_connex hne with h | h
    · have h2 := bytesLt_asymm h
      simp [dictInsert, h, h2, hne, Ne.symm hne]
    · have h2 := bytesLt_asymm h
      simp [dictInsert, h, h2, hne, Ne.symm hne]
  | (k3, v3) :: rest => by
    by_cases h32 : bytesLt k3 k2 = true
    · by_cases h31 : bytesLt k3 k1 = true
      · simp [dictInsert, h32, h31, dictInsert_comm k1 k2 v1 v2 hne rest]
      · have h31f : bytesLt k3 k1 = false := by simpa using h31
        by_cases he31 : k3 = k1
        · subst he31
          simp [dictInsert, h32, h31f, bytesLt_irrefl]
        · have h13 : bytesLt k1 k3 = true := bytesLt_of_not_lt (Ne.symm he31) h31
          have h12 : bytesLt k1 k2 = true := bytesLt_trans h13 h32
          simp [dictInsert, h32, h31f, he31, h12]
    · have h32f : bytesLt k3 k2 = false := by simpa using h32
      by_cases he32 : k3 = k2
      · subst he32
        have h31f2 : ¬ k3 = k1 := fun hc => hne (by rw [hc])
        by_cases h31 : bytesLt k3 k1 = true
        · have h13f : bytesLt k1 k3 = false := bytesLt_asymm h31
          simp [dictInsert, h32f, h31, bytesLt_irrefl, h13f, h31f2,
            fun hc : k1 = k3 => h31f2 hc.symm]
        · have h31f : bytesLt k3 k1 = false := by simpa using h31
          have h13 : bytesLt k1 k3 = true := bytesLt_of_not_lt (Ne.symm h31f2) h31
          have h31fb : bytesLt k3 k1 = false := bytesLt_asymm h13
          simp [dictInsert, h32f, h31fb, bytesLt_irrefl, h13, h31f2,
            fun hc : k1 = k3 => h31f2 hc.symm]
      · have h23 : bytesLt k2 k3 = true := bytesLt_of_not_lt (Ne.symm he32) h32
        by_cases h31 : bytesLt k3 k1 = true
        · have h21 : bytesLt k2 k1 = true := bytesLt_trans h23 h31
          simp [dictInsert, h32f, he32, h31, h21]
        · have h31f : bytesLt k3 k1 = false := by simpa using h31
          by_cases he31 : k3 = k1
          · subst he31
            have h13f : bytesLt k3 k3 = false := bytesLt_irrefl k3
            have h23b := h23
            simp [dictInsert, h32f, he32, h13f, h23, bytesLt_asymm h23, hne, Ne.symm hne]
          · have h13 : bytesLt k1 k3 = true := bytesLt_of_not_lt (Ne.symm he31) h31
            rcases bytesLt_connex hne with h12 | h21
            · have h21f : bytesLt k2 k1 = false := bytesLt_asymm h12
              simp [dictInsert, h32f, he32, h31f, he31, h12, h21f, hne, Ne.symm hne]
            · have h12f : bytesLt k1 k2 = false := bytesLt_asymm h21
              simp [dictInsert, h32f, he32, h31f, he31, h21, h12f, hne, Ne.symm hne]

theorem insEntry_of_sorted_cons {α : Type} (p : List Nat × α) :
    ∀ ps : List (List Nat × α), keysSortedB (p :: ps) = true → insEntry p ps = p :: ps
  | [], _ => rfl
  | q :: qs, h => by
    simp only [keysSortedB, Bool.and_eq_true] at h
    have hq : bytesLt q.1 p.1 = false := bytesLt_asymm h.1
    simp [insEntry, hq]

/-- An already key-sorted entry list is left unchanged by the serializer's
sort. -/
theorem sortEntries_of_sorted {α : Type} :
    ∀ l : List (List Nat × α), keysSortedB l = true → sortEntries l = l
  | [], _ => rfl
  | p :: ps, h => by
    simp only [sortEntries]
    rw [sortEntries_of_sorted ps (keysSortedB_tail h)]
    exact insEntry_of_sorted_cons p ps h

theorem dictFold_cons {α : Type} (acc : List (List Nat × α)) (e : List Nat × α)
    (es : List (List Nat × α)) :
    dictFold acc (e :: es) = dictFold (dictInsert e.1 e.2 acc) es := rfl

/-- Re-inserting an already key-sorted entry list into a map whose keys all
precede it reproduces the entries: in particular a canonical map, re-inserted
entry by entry into an empty map, is reproduced exactly. -/
theorem dictFold_sorted_append {α : Type} :
    ∀ (es acc : List (List Nat × α)), keysSortedB (acc ++ es) = true →
      dictFold acc es = acc ++ es
  | [], acc, _ => by simp [dictFold]
  | (k, v) :: es, acc, h => by
    have hpw := (keysSortedB_pairwise (acc ++ (k, v) :: es)).mp h
    rw [List.pairwise_append] at hpw
    have hall : ∀ p ∈ acc, bytesLt p.1 k = true := fun p hp =>
      hpw.2.2 p hp (k, v) (by simp)
    rw [dictFold_cons, dictInsert_append k v acc hall,
      dictFold_sorted_append es (acc ++ [(k, v)]) (by simpa using h)]
    simp

theorem fromList_sorted_id {α : Type} (m : List (List Nat × α))
    (h : keysSortedB m = true) : fromList m = m :=
  dictFold_sorted_append m [] (by simpa using h)

theorem dictFold_pairwise {α : Type} :
    ∀ (es acc : List (List Nat × α)), List.Pairwise (@entLt α) acc →
      List.Pairwise (@entLt α) (dictFold acc es)
  | [], _, h => h
  | (k, v) :: es, acc, h =>
    dictFold_pairwise es (dictInsert k v acc) (dictInsert_pairwise k v acc h)

theorem fromList_pairwise {α : Type} (es : List (List Nat × α)) :
    List.Pairwise (@entLt α) (fromList es) :=
  dictFold_pairwise es [] (by simp)

theorem fromList_sortedB {α : Type} (es : List (List Nat × α)) :
    keysSortedB (fromList es) = true :=
  (keysSortedB_pairwise _).mpr (fromList_pairwise es)

/-- Building a `HashMap` by repeated insertion does not depend on the
insertion order, as long as no key is duplicated. -/
theorem dictFold_perm {α : Type} :
    ∀ {l1 l2 : List (List Nat × α)}, l1.Perm l2 →
      ((l1.map Prod.fst).Nodup → ∀ acc, dictFold acc l1 = dictFold acc l2) := by
  intro l1 l2 hp
  induction hp with
  | nil => intro _ acc; rfl
  | cons x l ih =>
    intro hnd acc
    simp only [List.map_cons, List.nodup_cons] at hnd
    rw [dictFold_cons, dictFold_cons]
    exact ih hnd.2 _
  | swap x y l =>
    intro hnd acc
    simp only [List.map_cons, List.nodup_cons, List.mem_cons] at hnd
    have hxy : y.1 ≠ x.1 := fun hc => hnd.1 (Or.inl hc)
    show dictFold (dictInsert x.1 x.2 (dictInsert y.1 y.2 acc)) l
      = dictFold (dictInsert y.1 y.2 (dictInsert x.1 x.2 acc)) l
    rw [dictInsert_comm x.1 y.1 x.2 y.2 (Ne.symm hxy) acc]
  | trans h1 h2 ih1 ih2 =>
    intro hnd acc
    rw [ih1 hnd acc]
    have hnd2 := ((h1.map Prod.fst).nodup_iff).mp hnd
    rw [ih2 hnd2 acc]

theorem getLast?_cons_isSome {β : Type} : ∀ (f : β) (fs : List β),
    (f :: fs).getLast?.isSome = true
  | _, [] => rfl
  | _, g :: gs => by
    rw [List.getLast?_cons_cons]
    exact getLast?_cons_isSome g gs

theorem dictLookup_dictFold {α : Type} (k : List Nat) :
    ∀ (es acc : List (List Nat × α)),
      dictLookup k (dictFold acc es)
        = ((es.filter fun e => decide (e.1 = k)).getLast?.map Prod.snd).or
            (dictLookup k acc)
  | [], acc => by
    simp [dictFold, List.filter_nil]
  | (k1, v1) :: es, acc => by
    rw [dictFold_cons, dictLookup_dictFold k es (dictInsert k1 v1 acc)]
    by_cases hk : k1 = k
    · subst hk
      rw [List.filter_cons_of_pos (by simp)]
      rcases hfe : es.filter (fun e => decide (e.1 = k1)) with _ | ⟨f, fs⟩
      · rw [hfe]
        simp only [List.getLast?_nil, Option.map_none', Option.none_or]
        rw [dictLookup_insert_self]
        simp
      · rw [hfe, List.getLast?_cons_cons]
        rcases hgl : (f :: fs).getLast? with _ | x
        · have hsome := getLast?_cons_isSome f fs
          rw [hgl] at hsome
          exact absurd hsome (by simp)
        · simp [hgl]
    · rw [List.filter_cons_of_neg (by simp [hk]),
        dictLookup_insert_other k1 k v1 hk]

theorem dictLookup_fromList {α : Type} (k : List Nat) (es : List (List Nat × α)) :
    dictLookup k (fromList es)
      = (es.filter fun e => decide (e.1 = k)).getLast?.map Prod.snd := by
  rw [fromList, dictLookup_dictFold]
  simp [dictLookup]

/-! ### Parser completeness on token images -/

theorem headT_ne_end (v : Bencode) : headT v ≠ lexer.Token.End := by
  cases v <;> simp [headT]

namespace parser

/-- `parse_token` with the termination bound on the remainder erased. -/
def parse_token' (t : lexer.Token) (tokens : List lexer.Token) :
    Except Error (Bencode × List lexer.Token) :=
  (parse_token t tokens).map fun p => (p.1, p.2.val)

/-- `parse_list` with the termination bound on the remainder erased. -/
def parse_list' (tokens : List lexer.Token) (list : List Bencode) :
    Except Error (Bencode × List lexer.Token) :=
  (parse_list tokens list).map fun p => (p.1, p.2.val)

/-- `parse_dict` with the termination bound on the remainder erased. -/
def parse_dict' (tokens : List lexer.Token) (dict : List (List Nat × Bencode)) :
    Except Error (Bencode × List lexer.Token) :=
  (parse_dict tokens dict).map fun p => (p.1, p.2.val)

end parser

theorem proj_ok_elim {P : List lexer.Token → Prop}
    {x : Except parser.Error (Bencode × {r : List lexer.Token // P r})}
    {v : Bencode} {r : List lexer.Token}
    (h : x.map (fun p => (p.1, p.2.val)) = .ok (v, r)) :
    ∃ hr : P r, x = .ok (v, ⟨r, hr⟩) := by
  rcases x with e | ⟨v2, r2⟩
  · simp [Except.map] at h
  · rcases r2 with ⟨rv, rp⟩
    simp only [Except.map, Except.ok.injEq, Prod.mk.injEq] at h
    obtain ⟨hv, hr⟩ := h
    subst hv
    subst hr
    exact ⟨rp, rfl⟩

theorem parse_token'_integer (n : Int) (tokens : List lexer.Token) :
    parser.parse_token' (.Integer n) tokens = .ok (.Integer n, tokens) := by
  simp [parser.parse_token', parser.parse_token, Except.map]

theorem parse_token'_bytestring (s : List Nat) (tokens : List lexer.Token) :
    parser.parse_token' (.ByteString s) tokens = .ok (.ByteString s, tokens) := by
  simp [parser.parse_token', parser.parse_token, Except.map]

theorem parse_token'_list (tokens : List lexer.Token) :
    parser.parse_token' .List tokens = parser.parse_list' tokens [] := by
  simp [parser.parse_token', parser.parse_list', parser.parse_token]

theorem parse_token'_dict (tokens : List lexer.Token) :
    parser.parse_token' .Dictionary tokens = parser.parse_dict' tokens [] := by
  simp [parser.parse_token', parser.parse_dict', parser.parse_token]

theorem parse_list'_end (rest : List lexer.Token) (acc : List Bencode) :
    parser.parse_list' (.End :: rest) acc = .ok (.List acc, rest) := by
  rw [parser.parse_list', parser.parse_list.eq_def]
  simp [Except.map]

theorem parse_list'_nil (acc : List Bencode) :
    parser.parse_list' [] acc = .error .NoEndList := by
  rw [parser.parse_list', parser.parse_list.eq_def]
  simp [Except.map]

theorem parse_dict'_end (rest : List lexer.Token) (dict : List (List Nat × Bencode)) :
    parser.parse_dict' (.End :: rest) dict = .ok (.Dictionary dict, rest) := by
  rw [parser.parse_dict', parser.parse_dict.eq_def]
  simp [Except.map]

theorem parse_list_cons (tok : lexer.Token) (rest : List lexer.Token)
    (acc : List Bencode) (hne : tok ≠ .End) :
    parser.parse_list (tok :: rest) acc
      = match parser.parse_token tok rest with
        | .error e => .error e
        | .ok (v, r) =>
          match parser.parse_list r.val (acc ++ [v]) with
          | .error e => .error e
          | .ok (b, r2) => .ok (b, ⟨r2.val, by
              have h1 := r.property
              have h2 := r2.property
              simp only [List.length_cons]
              omega⟩) := by
  cases tok
  · rw [parser.parse_list.eq_def]
  · rw [parser.parse_list.eq_def]
  · rw [parser.parse_list.eq_def]
  · rw [parser.parse_list.eq_def]
  · exact absurd rfl hne

theorem parse_list'_cons_ok (tok : lexer.Token) (rest : List lexer.Token)
    (acc : List Bencode) (hne : tok ≠ .End) (v : Bencode) (r : List lexer.Token)
    (hpt : parser.parse_token' tok rest = .ok (v, r)) :
    parser.parse_list' (tok :: rest) acc = parser.parse_list' r (acc ++ [v]) := by
  obtain ⟨hr, hraw⟩ := proj_ok_elim hpt
  rw [parser.parse_list', parse_list_cons tok rest acc hne, hraw]
  rcases hpl : parser.parse_list r (acc ++ [v]) with e | ⟨b, r2⟩
  · simp [parser.parse_list', hpl, Except.map]
  · simp [parser.parse_list', hpl, Except.map]

theorem parse_dict_cons_key (k : List Nat) (tok : lexer.Token)
    (rest2 : List lexer.Token) (dict : List (List Nat × Bencode)) :
    parser.parse_dict (.ByteString k :: tok :: rest2) dict
      = match parser.parse_token tok rest2 with
        | .error e => .error e
        | .ok (v, r) =>
          match parser.parse_dict r.val (dictInsert k v dict) with
          | .error e => .error e
          | .ok (b, r2) => .ok (b, ⟨r2.val, by
              have h1 := r.property
              have h2 := r2.property
              simp only [List.length_cons]
              omega⟩) := by
  rw [parser.parse_dict.eq_def]

theorem parse_dict'_cons_ok (k : List Nat) (tok : lexer.Token)
    (rest2 : List lexer.Token) (dict : List (List Nat × Bencode))
    (v : Bencode) (r : List lexer.Token)
    (hpt : parser.parse_token' tok rest2 = .ok (v, r)) :
    parser.parse_dict' (.ByteString k :: tok :: rest2) dict
      = parser.parse_dict' r (dictInsert k v dict) := by
  obtain ⟨hr, hraw⟩ := proj_ok_elim hpt
  rw [parser.parse_dict', parse_dict_cons_key k tok rest2 dict, hraw]
  rcases hpd : parser.parse_dict r (dictInsert k v dict) with e | ⟨b, r2⟩
  · simp [parser.parse_dict', hpd, Except.map]
  · simp [parser.parse_dict', hpd, Except.map]

mutual

theorem parseTok_complete (v : Bencode) (rest : List lexer.Token) (hv : wfB v = true) :
    parser.parse_token' (headT v) (tailT v ++ rest) = .ok (v, rest) := by
  cases v with
  | Integer n =>
    rw [headT, tailT, List.nil_append]
    exact parse_token'_integer n rest
  | ByteString s =>
    rw [headT, tailT, List.nil_append]
    exact parse_token'_bytestring s rest
  | List l =>
    have hl : wfList l = true := by simpa [wfB] using hv
    rw [headT, tailT, parse_token'_list, List.append_assoc, List.singleton_append]
    rw [parseList_complete l rest [] hl]
    simp
  | Dictionary m =>
    have hm := hv
    simp only [wfB, Bool.and_eq_true] at hm
    rw [headT, tailT, parse_token'_dict, List.append_assoc, List.singleton_append]
    rw [parseDict_complete m rest [] hm.2]
    have hid : dictFold [] m = m := fromList_sorted_id m hm.1
    simp [fromList] at hid
    simp [hid]

theorem parseList_complete (vs : List Bencode) (rest : List lexer.Token)
    (acc : List Bencode) (hv : wfList vs = true) :
    parser.parse_list' (toTokensList vs ++ .End :: rest) acc
      = .ok (.List (acc ++ vs), rest) := by
  cases vs with
  | nil =>
    rw [toTokensList, List.nil_append, parse_list'_end]
    simp
  | cons v vs =>
    have h1 : wfB v = true := by
      simp only [wfList, Bool.and_eq_true] at hv
      exact hv.1
    have h2 : wfList vs = true := by
      simp only [wfList, Bool.and_eq_true] at hv
      exact hv.2
    rw [toTokensList, toTokens_decomp v, List.cons_append, List.cons_append,
      List.append_assoc]
    rw [parse_list'_cons_ok (headT v) _ acc (headT_ne_end v) v
      (toTokensList vs ++ lexer.Token.End :: rest)
      (parseTok_complete v (toTokensList vs ++ lexer.Token.End :: rest) h1)]
    rw [parseList_complete vs rest (acc ++ [v]) h2]
    simp

theorem parseDict_complete (es : List (List Nat × Bencode)) (rest : List lexer.Token)
    (acc : List (List Nat × Bencode)) (hv : wfEntries es = true) :
    parser.parse_dict' (toTokensEntries es ++ .End :: rest) acc
      = .ok (.Dictionary (dictFold acc es), rest) := by
  cases es with
  | nil =>
    rw [toTokensEntries, List.nil_append, parse_dict'_end]
    simp [dictFold]
  | cons e es =>
    rcases e with ⟨k, val⟩
    have h1 : wfB val = true := by
      simp only [wfEntries, Bool.and_eq_true] at hv
      exact hv.1
    have h2 : wfEntries es = true := by
      simp only [wfEntries, Bool.and_eq_true] at hv
      exact hv.2
    rw [toTokensEntries, List.cons_append, toTokens_decomp val, List.cons_append,
      List.cons_append, List.append_assoc]
    rw [parse_dict'_cons_ok k (headT val) _ acc val
      (toTokensEntries es ++ lexer.Token.End :: rest)
      (parseTok_complete val (toTokensEntries es ++ lexer.Token.End :: rest) h1)]
    rw [parseDict_complete es rest (dictInsert k val acc) h2]
    rw [dictFold_cons]

end

/-! ### The lexer on canonical encodings -/

/-- Prepend tokens to a successful lexer outcome. -/
def consTok (ts : List lexer.Token) (r : LRes lexer.Error (List lexer.Token)) :
    LRes lexer.Error (List lexer.Token) :=
  match r with
  | .ok l => .ok (ts ++ l)
  | r => r

theorem consTok_nil (r : LRes lexer.Error (List lexer.Token)) : consTok [] r = r := by
  cases r <;> simp [consTok]

theorem consTok_append (a b : List lexer.Token) (r : LRes lexer.Error (List lexer.Token)) :
    consTok (a ++ b) r = consTok a (consTok b r) := by
  cases r <;> simp [consTok]

theorem parse_step (slice : List Nat) (t : lexer.Token) (h : lexer.tokenize slice = .ok t)
    (hs : t.shift ≤ slice.length) :
    lexer.parse slice = consTok [t] (lexer.parse (slice.drop t.shift)) := by
  rw [lexer.parse_tok_ok slice t h hs]
  rcases lexer.parse (slice.drop t.shift) with ts | e | _ <;> simp [consTok]

theorem intToDec_chars (n : Int) : ∀ c ∈ intToDec n, (48 ≤ c ∧ c ≤ 57) ∨ c = 45 := by
  intro c hc
  rw [intToDec] at hc
  split at hc
  · rcases List.mem_cons.mp hc with h | h
    · exact Or.inr h
    · exact Or.inl (natToDec_digits _ c h)
  · exact Or.inl (natToDec_digits _ c hc)

theorem parse_integer_front (n : Int) (h1 : -(2 ^ 31) ≤ n) (h2 : n < 2 ^ 31)
    (rest : List Nat) :
    lexer.parse ((105 :: (intToDec n ++ [101])) ++ rest)
      = consTok [.Integer n] (lexer.parse rest) := by
  have hshape : (105 :: (intToDec n ++ [101])) ++ rest
      = 105 :: (intToDec n ++ 101 :: rest) := by simp
  have hru : lexer.read_until (intToDec n ++ 101 :: rest) 101 = intToDec n :=
    lexer.read_until_append _ _ _ (fun x hx => by
      rcases intToDec_chars n x hx with h | h <;> omega)
  have htok : lexer.tokenize (105 :: (intToDec n ++ 101 :: rest)) = .ok (.Integer n) := by
    simp only [lexer.tokenize, lexer.read_int, hru, parseI32_intToDec n h1 h2]
    rfl
  have hshift : (lexer.Token.Integer n).shift = (105 :: (intToDec n ++ [101])).length := by
    simp [lexer.Token.shift, str_lenI]
    omega
  have hdrop : ((105 :: (intToDec n ++ [101])) ++ rest).drop (lexer.Token.Integer n).shift
      = rest := by
    rw [hshift, List.drop_left]
  rw [← hshape] at htok
  rw [parse_step _ (.Integer n) htok (by rw [hshift]; simp), hdrop]

theorem parse_bytestring_front (s : List Nat) (hs : goodStr s = true) (rest : List Nat) :
    lexer.parse ((natToDec s.length ++ 58 :: s) ++ rest)
      = consTok [.ByteString s] (lexer.parse rest) := by
  have hascii : ∀ b ∈ s, b < 128 := by
    simp only [goodStr, Bool.and_eq_true, List.all_eq_true, decide_eq_true_eq] at hs
    exact hs.1
  have hlen : s.length < 2 ^ 64 := by
    simp only [goodStr, Bool.and_eq_true, decide_eq_true_eq] at hs
    exact hs.2
  have hshape : (natToDec s.length ++ 58 :: s) ++ rest
      = natToDec s.length ++ 58 :: (s ++ rest) := by simp
  have hru : lexer.read_until (natToDec s.length ++ 58 :: (s ++ rest)) 58
      = natToDec s.length :=
    lexer.read_until_append _ _ _ (fun x hx => by
      have := natToDec_digits _ x hx
      omega)
  have hrl : lexer.read_len (natToDec s.length ++ 58 :: (s ++ rest)) = .ok s.length := by
    rw [lexer.read_len, hru, parseUsize_natToDec _ hlen]
  have hlenfull : (natToDec s.length ++ 58 :: (s ++ rest)).length
      = str_lenN s.length + 1 + s.length + rest.length := by
    simp [str_lenN]
    omega
  have hdrop1 : (natToDec s.length ++ 58 :: (s ++ rest)).drop (str_lenN s.length + 1)
      = s ++ rest := by
    have hsh : natToDec s.length ++ 58 :: (s ++ rest)
        = (natToDec s.length ++ [58]) ++ (s ++ rest) := by simp
    have hl : (natToDec s.length ++ [58]).length = str_lenN s.length + 1 := by
      simp [str_lenN]
    rw [hsh, ← hl, List.drop_left]
  have hrbs : lexer.read_byte_string (natToDec s.length ++ 58 :: (s ++ rest))
      = .ok s := by
    simp only [lexer.read_byte_string, hrl]
    rw [if_pos (by rw [hlenfull]; omega)]
    rw [hdrop1, List.take_left, flatMap_latin1_ascii s hascii]
  obtain ⟨c, cs, hnd⟩ : ∃ c cs, natToDec s.length = c :: cs := by
    rcases hh : natToDec s.length with _ | ⟨c, cs⟩
    · exact absurd hh (natToDec_ne_nil _)
    · exact ⟨c, cs, rfl⟩
  have hc : 48 ≤ c ∧ c ≤ 57 := natToDec_digits _ c (by rw [hnd]; simp)
  have htok : lexer.tokenize (natToDec s.length ++ 58 :: (s ++ rest))
      = .ok (.ByteString s) := by
    rw [hnd] at hrbs ⊢
    simp only [List.cons_append, lexer.tokenize]
    rw [if_neg (by omega), if_neg (by omega), if_neg (by omega), if_neg (by omega),
      if_pos hc]
    rw [List.cons_append] at hrbs
    rw [hrbs]
  have hshift : (lexer.Token.ByteString s).shift
      = (natToDec s.length ++ 58 :: s).length := by
    simp [lexer.Token.shift, str_lenN]
    omega
  have hdrop : ((natToDec s.length ++ 58 :: s) ++ rest).drop
      (lexer.Token.ByteString s).shift = rest := by
    rw [hshift, List.drop_left]
  rw [← hshape] at htok
  rw [parse_step _ (.ByteString s) htok (by rw [hshift]; simp), hdrop]

mutual

theorem lexParse_complete (v : Bencode) (rest : List Nat) (hv : goodB v = true) :
    lexer.parse (v.into_bytes ++ rest) = consTok (toTokens v) (lexer.parse rest) := by
  cases v with
  | Integer n =>
    have hr : -(2 ^ 31) ≤ n ∧ n < 2 ^ 31 := by simpa [goodB] using hv
    simp only [Bencode.into_bytes]
    rw [parse_integer_front n hr.1 hr.2 rest]
    simp [toTokens]
  | ByteString s =>
    have hstr : goodStr s = true := by simpa [goodB] using hv
    simp only [Bencode.into_bytes]
    rw [parse_bytestring_front s hstr rest]
    simp [toTokens]
  | List l =>
    have hl : goodList l = true := by simpa [goodB] using hv
    simp only [Bencode.into_bytes]
    have hshape : (108 :: (listBytes l ++ [101])) ++ rest
        = 108 :: (listBytes l ++ (101 :: rest)) := by simp
    rw [hshape]
    have htok : lexer.tokenize (108 :: (listBytes l ++ (101 :: rest))) = .ok .List := by
      simp [lexer.tokenize]
    rw [parse_step _ .List htok (by simp [lexer.Token.shift])]
    have hdrop : (108 :: (listBytes l ++ (101 :: rest))).drop
        (lexer.Token.List).shift = listBytes l ++ (101 :: rest) := rfl
    rw [hdrop]
    rw [lexListBytes_complete l (101 :: rest) hl]
    have htokE : lexer.tokenize (101 :: rest) = .ok .End := by
      simp [lexer.tokenize]
    rw [parse_step _ .End htokE (by simp [lexer.Token.shift])]
    have hdropE : (101 :: rest).drop (lexer.Token.End).shift = rest := rfl
    rw [hdropE]
    simp only [toTokens]
    rw [show lexer.Token.List :: (toTokensList l ++ [lexer.Token.End])
        = [lexer.Token.List] ++ (toTokensList l ++ [lexer.Token.End]) from rfl]
    rw [consTok_append, consTok_append]
  | Dictionary m =>
    have hm := hv
    simp only [goodB, Bool.and_eq_true] at hm
    simp only [Bencode.into_bytes]
    rw [sortEntries_of_sorted m hm.1]
    have hshape : (100 :: (entriesBytes m ++ [101])) ++ rest
        = 100 :: (entriesBytes m ++ (101 :: rest)) := by simp
    rw [hshape]
    have htok : lexer.tokenize (100 :: (entriesBytes m ++ (101 :: rest)))
        = .ok .Dictionary := by
      simp [lexer.tokenize]
    rw [parse_step _ .Dictionary htok (by simp [lexer.Token.shift])]
    have hdrop : (100 :: (entriesBytes m ++ (101 :: rest))).drop
        (lexer.Token.Dictionary).shift = entriesBytes m ++ (101 :: rest) := rfl
    rw [hdrop]
    rw [lexEntriesBytes_complete m (101 :: rest) hm.2]
    have htokE : lexer.tokenize (101 :: rest) = .ok .End := by
      simp [lexer.tokenize]
    rw [parse_step _ .End htokE (by simp [lexer.Token.shift])]
    have hdropE : (101 :: rest).drop (lexer.Token.End).shift = rest := rfl
    rw [hdropE]
    simp only [toTokens]
    rw [show lexer.Token.Dictionary :: (toTokensEntries m ++ [lexer.Token.End])
        = [lexer.Token.Dictionary] ++ (toTokensEntries m ++ [lexer.Token.End]) from rfl]
    rw [consTok_append, consTok_append]

theorem lexListBytes_complete (vs : List Bencode) (rest : List Nat)
    (hv : goodList vs = true) :
    lexer.parse (listBytes vs ++ rest) = consTok (toTokensList vs) (lexer.parse rest) := by
  cases vs with
  | nil => simp only [listBytes, List.nil_append, toTokensList, consTok_nil]
  | cons v vs =>
    have h1 : goodB v = true := by
      simp only [goodList, Bool.and_eq_true] at hv
      exact hv.1
    have h2 : goodList vs = true := by
      simp only [goodList, Bool.and_eq_true] at hv
      exact hv.2
    simp only [listBytes, toTokensList]
    rw [List.append_assoc]
    rw [lexParse_complete v (listBytes vs ++ rest) h1]
    rw [lexListBytes_complete vs rest h2]
    rw [consTok_append]

theorem lexEntriesBytes_complete (es : List (List Nat × Bencode)) (rest : List Nat)
    (hv : goodEntries es = true) :
    lexer.parse (entriesBytes es ++ rest)
      = consTok (toTokensEntries es) (lexer.parse rest) := by
  cases es with
  | nil => simp only [entriesBytes, List.nil_append, toTokensEntries, consTok_nil]
  | cons e es =>
    rcases e with ⟨k, val⟩
    have hk : goodStr k = true := by
      simp only [goodEntries, Bool.and_eq_true] at hv
      exact hv.1.1
    have h1 : goodB val = true := by
      simp only [goodEntries, Bool.and_eq_true] at hv
      exact hv.1.2
    have h2 : goodEntries es = true := by
      simp only [goodEntries, Bool.and_eq_true] at hv
      exact hv.2
    simp only [entriesBytes, toTokensEntries]
    have hshape : ((natToDec k.length ++ 58 :: k) ++ (Bencode.into_bytes val ++ entriesBytes es)) ++ rest
        = (natToDec k.length ++ 58 :: k) ++ (Bencode.into_bytes val ++ (entriesBytes es ++ rest)) := by
      simp only [List.append_assoc]
    rw [hshape]
    rw [parse_bytestring_front k hk (Bencode.into_bytes val ++ (entriesBytes es ++ rest))]
    rw [lexParse_complete val (entriesBytes es ++ rest) h1]
    rw [lexEntriesBytes_complete es rest h2]
    rw [show lexer.Token.ByteString k :: (toTokens val ++ toTokensEntries es)
        = [lexer.Token.ByteString k] ++ (toTokens val ++ toTokensEntries es) from rfl]
    rw [consTok_append, consTok_append]

end

/-! ### Derived pipeline facts -/

theorem parse_cons_proj (t : lexer.Token) (rest : List lexer.Token) :
    parser.parse (t :: rest) = (parser.parse_token' t rest).map fun p => p.1 := by
  rcases h : parser.parse_token t rest with e | p <;>
    simp [parser.parse, parser.parse_token', h, Except.map]

/-- A complete value at the front of the token sequence parses to that value;
everything after it is ignored. -/
theorem parse_prefix_value (v : Bencode) (extra : List lexer.Token)
    (hv : wfB v = true) : parser.parse (toTokens v ++ extra) = .ok v := by
  rw [toTokens_decomp v, List.cons_append, parse_cons_proj,
    parseTok_complete v extra hv]
  rfl

/-- Exhausting the token sequence while a list is still open: no matter how
many complete values were consumed, the missing End token is `NoEndList`. -/
theorem parse_list_no_end (vs : List Bencode) (acc : List Bencode)
    (hv : wfList vs = true) :
    parser.parse_list' (toTokensList vs) acc = .error .NoEndList := by
  induction vs generalizing acc with
  | nil =>
    rw [toTokensList]
    exact parse_list'_nil acc
  | cons v vs ih =>
    have h1 : wfB v = true := by
      simp only [wfList, Bool.and_eq_true] at hv
      exact hv.1
    have h2 : wfList vs = true := by
      simp only [wfList, Bool.and_eq_true] at hv
      exact hv.2
    rw [toTokensList, toTokens_decomp v, List.cons_append]
    rw [parse_list'_cons_ok (headT v) _ acc (headT_ne_end v) v (toTokensList vs)
      (parseTok_complete v (toTokensList vs) h1)]
    exact ih (acc ++ [v]) h2

/-- The composed pipeline is the identity on the canonical encodings of
well-formed values. -/
theorem decode_into_bytes (v : Bencode) (hv : goodB v = true) :
    decode v.into_bytes = .ok v := by
  have hlex : lexer.parse v.into_bytes = .ok (toTokens v) := by
    have h := lexParse_complete v [] hv
    rw [List.append_nil, lexer.parse_nil] at h
    rw [h]
    simp [consTok]
  have hparse : parser.parse (toTokens v) = .ok v := by
    have h := parse_prefix_value v [] (goodB_wfB v hv)
    rwa [List.append_nil] at h
  simp [decode, hlex, hparse]

/-! ### Claim theorems -/

/-- C1, counterexample: the round-trip claim fails as stated.  Encoding the
valid one-character byte-string value "é" (UTF-8 bytes [195, 169]) yields
"2:\xC3\xA9"; decoding rebuilds the payload byte-by-byte as Latin-1 (four
UTF-8 bytes), the shift recomputed from that longer string overruns the
buffer, and decoding panics instead of returning the value. -/
theorem claim_C1_counterexample :
    (Bencode.ByteString [195, 169]).into_bytes = [50, 58, 195, 169] ∧
    decode [50, 58, 195, 169] = .panic ∧
    (LRes.panic : LRes DecodeError Bencode) ≠ .ok (.ByteString [195, 169]) := by
  refine ⟨?_, ?_, by simp⟩
  · simp [Bencode.into_bytes]
    rfl
  · have htok : lexer.tokenize [50, 58, 195, 169]
        = .ok (.ByteString [195, 131, 194, 169]) := rfl
    have hp : lexer.parse [50, 58, 195, 169] = .panic :=
      lexer.parse_tok_panic _ _ htok (by decide)
    simp [decode, hp]

/-- C1, amended: decode after encode is the identity on every value tree whose
integers fit the token's signed 32-bit range, whose byte strings and
dictionary keys are ASCII with lengths below 2^64, and whose dictionaries are
canonical (strictly key-sorted, as the `HashMap` model requires). -/
theorem claim_C1_round_trip (v : Bencode) (hv : goodB v = true) :
    decode v.into_bytes = .ok v :=
  decode_into_bytes v hv

/-- C1, witness: the round-trip theorem applied to the dictionary
{"bar": "spam", "foo": 42}. -/
theorem claim_C1_witness :
    goodB (Bencode.Dictionary [([98, 97, 114], .ByteString [115, 112, 97, 109]),
      ([102, 111, 111], .Integer 42)]) = true ∧
    decode (Bencode.Dictionary [([98, 97, 114], .ByteString [115, 112, 97, 109]),
      ([102, 111, 111], .Integer 42)]).into_bytes
      = .ok (Bencode.Dictionary [([98, 97, 114], .ByteString [115, 112, 97, 109]),
        ([102, 111, 111], .Integer 42)]) := by
  have hgood : goodB (Bencode.Dictionary [([98, 97, 114], .ByteString [115, 112, 97, 109]),
      ([102, 111, 111], .Integer 42)]) = true := by
    simp [goodB, goodEntries, goodStr, keysSortedB, bytesLt]
  exact ⟨hgood, claim_C1_round_trip _ hgood⟩

/-- C2: the serializer emits dictionary entries in strictly ascending
byte-lexicographic key order, and the bytes depend only on the abstract map:
building the map by inserting the same distinct-keyed entries in any other
order encodes to identical bytes. -/
theorem claim_C2_canonical_order (l1 l2 : List (List Nat × Bencode))
    (hp : l1.Perm l2) (hnd : (l1.map Prod.fst).Nodup) :
    keysSortedB (sortEntries (fromList l1)) = true ∧
    (Bencode.Dictionary (fromList l1)).into_bytes
      = (Bencode.Dictionary (fromList l2)).into_bytes := by
  have heq : fromList l1 = fromList l2 := dictFold_perm hp hnd []
  constructor
  · rw [sortEntries_of_sorted _ (fromList_sortedB l1)]
    exact fromList_sortedB l1
  · rw [heq]

/-- C2, witness: inserting keys "b", "a", "c" and inserting them as
"a", "b", "c" yield maps that encode identically, with sorted emission. -/
theorem claim_C2_witness :
    keysSortedB (sortEntries (fromList [([98], Bencode.Integer 1),
      ([97], Bencode.Integer 2), ([99], Bencode.Integer 3)])) = true ∧
    (Bencode.Dictionary (fromList [([98], Bencode.Integer 1),
      ([97], Bencode.Integer 2), ([99], Bencode.Integer 3)])).into_bytes
      = (Bencode.Dictionary (fromList [([97], Bencode.Integer 2),
        ([98], Bencode.Integer 1), ([99], Bencode.Integer 3)])).into_bytes :=
  claim_C2_canonical_order
    [([98], Bencode.Integer 1), ([97], Bencode.Integer 2), ([99], Bencode.Integer 3)]
    [([97], Bencode.Integer 2), ([98], Bencode.Integer 1), ([99], Bencode.Integer 3)]
    (List.Perm.swap ([97], Bencode.Integer 2) ([98], Bencode.Integer 1)
      [([99], Bencode.Integer 3)])
    (by decide)

/-- C4: on "5:ab" ([53, 58, 97, 98]) the byte-string reader indexes
`slice[2..7]` in a four-byte buffer: the code panics instead of returning the
typed TruncatedByteString error the claim promises (the lexer error type has
no truncation variant at all). -/
theorem claim_C4_truncation_panics :
    lexer.read_byte_string [53, 58, 97, 98] = .panic ∧
    decode [53, 58, 97, 98] = .panic := by
  refine ⟨rfl, ?_⟩
  have hp : lexer.parse [53, 58, 97, 98] = .panic := lexer.parse_eq_panic _ rfl
  simp [decode, hp]

/-- C5: decoding can crash.  On "i42" ([105, 52, 50]) the integer reader
accepts the unterminated literal, the shift recomputed from the token advances
the cursor past the end of the buffer, and the next `&slice[index..]` panics;
nothing in the code implements a MaxDepthExceeded error or any depth guard. -/
theorem claim_C5_decode_panics :
    lexer.tokenize [105, 52, 50] = .ok (.Integer 42) ∧
    decode [105, 52, 50] = .panic := by
  refine ⟨rfl, ?_⟩
  have hp : lexer.parse [105, 52, 50] = .panic :=
    lexer.parse_tok_panic _ _ rfl (by decide)
  simp [decode, hp]

/-- C6, counterexample: tokens carry i32, not i64 — the literal
"i2147483648e" (2^31, representable in a signed 64-bit integer) is rejected
with ReadInt instead of parsing. -/
theorem claim_C6_counterexample :
    lexer.tokenize [105, 50, 49, 52, 55, 52, 56, 51, 54, 52, 56, 101]
      = .err .ReadInt ∧ (2147483648 : Int) < 2 ^ 63 :=
  ⟨rfl, by norm_num⟩

/-- C6, amended: integer tokens carry a signed 32-bit value (only the
`Bencode::Integer` value payload is 64-bit): every literal i<n>e with n in
the i32 range tokenizes to Integer(n). -/
theorem claim_C6_integer_tokens (n : Int) (h1 : -(2 ^ 31) ≤ n) (h2 : n < 2 ^ 31) :
    lexer.tokenize (105 :: (intToDec n ++ [101])) = .ok (.Integer n) := by
  have hru : lexer.read_until (intToDec n ++ 101 :: []) 101 = intToDec n :=
    lexer.read_until_append _ _ _ (fun x hx => by
      rcases intToDec_chars n x hx with h | h <;> omega)
  simp only [lexer.tokenize, lexer.read_int]
  rw [show (intToDec n ++ [101] : List Nat) = intToDec n ++ 101 :: [] from rfl, hru,
    parseI32_intToDec n h1 h2]
  rfl

/-- C6, witness: "i-42e" tokenizes to the signed value -42. -/
theorem claim_C6_witness :
    lexer.tokenize [105, 45, 52, 50, 101] = .ok (.Integer (-42)) := by
  have h := claim_C6_integer_tokens (-42) (by norm_num) (by norm_num)
  rwa [show (105 :: (intToDec (-42) ++ [101]) : List Nat)
      = [105, 45, 52, 50, 101] from rfl] at h

/-- C7: a List-open token, the token sequences of zero or more values, and a
consumed End token parse to the List of those values in order (decoding "le"
gives the empty list); if the tokens are exhausted before the End, parsing
fails with NoEndList — the error the spec calls UnterminatedList. -/
theorem claim_C7_list_parsing (vs : List Bencode) (hv : wfList vs = true) :
    parser.parse (.List :: (toTokensList vs ++ [.End])) = .ok (.List vs) ∧
    parser.parse (.List :: toTokensList vs) = .error .NoEndList ∧
    decode [108, 101] = .ok (.List []) := by
  refine ⟨?_, ?_, ?_⟩
  · have h := parse_prefix_value (.List vs) [] (by simpa [wfB] using hv)
    rw [List.append_nil] at h
    simpa [toTokens] using h
  · rw [parse_cons_proj, parse_token'_list, parse_list_no_end vs [] hv]
    rfl
  · have h1 : lexer.parse [108, 101] = .ok [.List, .End] := by
      rw [parse_step [108, 101] .List rfl (by decide)]
      rw [show ([108, 101] : List Nat).drop (lexer.Token.List).shift = [101] from rfl]
      rw [parse_step [101] .End rfl (by decide)]
      rw [show ([101] : List Nat).drop (lexer.Token.End).shift = ([] : List Nat) from rfl]
      rw [lexer.parse_nil]
      rfl
    have h2 : parser.parse [.List, .End] = .ok (.List []) := by
      have h := parse_prefix_value (.List []) [] (by simp [wfB, wfList])
      simpa [toTokens, toTokensList] using h
    simp [decode, h1, h2]

/-- C7, witness: the theorem applied to the one-element list [Integer 5]. -/
theorem claim_C7_witness :
    parser.parse [.List, .Integer 5, .End] = .ok (.List [.Integer 5]) ∧
    parser.parse [.List, .Integer 5] = .error .NoEndList := by
  have h := claim_C7_list_parsing [.Integer 5] (by simp [wfList, wfB])
  refine ⟨?_, ?_⟩
  · have h1 := h.1
    simpa [toTokensList, toTokens] using h1
  · have h2 := h.2.1
    simpa [toTokensList, toTokens] using h2

/-- C8: the lexer treats the empty buffer as clean end-of-input and returns
the empty token sequence without error; the parser fails on the empty token
sequence with NoTokens, so decoding "" fails with NoTokens. -/
theorem claim_C8_empty_input :
    lexer.parse [] = .ok [] ∧
    parser.parse ([] : List lexer.Token) = .error .NoTokens ∧
    decode [] = .err (.parseErr .NoTokens) := by
  refine ⟨lexer.parse_nil, rfl, ?_⟩
  simp [decode, lexer.parse_nil]
  rfl

/-- C9: parsing a dictionary token sequence inserts every key/value pair into
the map in order, so a duplicated key maps to the value after its last
occurrence (last write wins), and every distinct key is present with its
value; lookup in the resulting map is exactly "last value for the key in the
entry sequence". -/
theorem claim_C9_duplicate_keys (entries : List (List Nat × Bencode))
    (hv : wfEntries entries = true) :
    parser.parse (.Dictionary :: (toTokensEntries entries ++ [.End]))
      = .ok (.Dictionary (fromList entries)) ∧
    ∀ k, dictLookup k (fromList entries)
      = (entries.filter fun e => decide (e.1 = k)).getLast?.map Prod.snd := by
  constructor
  · rw [parse_cons_proj, parse_token'_dict,
      show (toTokensEntries entries ++ [.End] : List lexer.Token)
        = toTokensEntries entries ++ .End :: [] from rfl,
      parseDict_complete entries [] [] hv]
    rfl
  · intro k
    exact dictLookup_fromList k entries

/-- C9, witness: the key "a" appearing twice maps to the later value 2. -/
theorem claim_C9_witness :
    parser.parse [.Dictionary, .ByteString [97], .Integer 1, .ByteString [97],
      .Integer 2, .End] = .ok (.Dictionary [([97], .Integer 2)]) ∧
    dictLookup [97] (fromList [([97], Bencode.Integer 1), ([97], Bencode.Integer 2)])
      = some (.Integer 2) := by
  have h := claim_C9_duplicate_keys [([97], .Integer 1), ([97], .Integer 2)]
    (by simp [wfEntries, wfB])
  refine ⟨?_, ?_⟩
  · have h1 := h.1
    simpa [toTokensEntries, toTokens, fromList, dictFold, dictInsert, bytesLt] using h1
  · have h2 := h.2 [97]
    simpa [fromList, dictFold, dictInsert, bytesLt] using h2

/-- C10: the parser does not require the token sequence to be exhausted — a
complete value at the front parses to that value and all following tokens are
silently ignored; in particular the tokens of "i1ei2e" parse to Integer(1). -/
theorem claim_C10_trailing_tokens (v : Bencode) (extra : List lexer.Token)
    (hv : wfB v = true) :
    parser.parse (toTokens v ++ extra) = .ok v ∧
    decode [105, 49, 101, 105, 50, 101] = .ok (.Integer 1) := by
  refine ⟨parse_prefix_value v extra hv, ?_⟩
  have h1 : lexer.parse [105, 49, 101, 105, 50, 101] = .ok [.Integer 1, .Integer 2] := by
    rw [parse_step [105, 49, 101, 105, 50, 101] (.Integer 1) rfl (by decide)]
    rw [show ([105, 49, 101, 105, 50, 101] : List Nat).drop
        (lexer.Token.Integer 1).shift = [105, 50, 101] from rfl]
    rw [parse_step [105, 50, 101] (.Integer 2) rfl (by decide)]
    rw [show ([105, 50, 101] : List Nat).drop (lexer.Token.Integer 2).shift
        = ([] : List Nat) from rfl]
    rw [lexer.parse_nil]
    rfl
  have h2 : parser.parse [.Integer 1, .Integer 2] = .ok (.Integer 1) := by
    have h := parse_prefix_value (.Integer 1) [.Integer 2] (by simp [wfB])
    simpa [toTokens] using h
  simp [decode, h1, h2]

/-- C10, witness: the theorem applied to Integer(1) with a trailing Integer(2)
token. -/
theorem claim_C10_witness :
    parser.parse [.Integer 1, .Integer 2] = .ok (.Integer 1) := by
  have h := (claim_C10_trailing_tokens (.Integer 1) [.Integer 2] (by simp [wfB])).1
  simpa [toTokens] using h

/-! ### Shift versus reader consumption (claim C3) -/

/-- Modelled from the spec (section 4.1 and glossary entry "Shift"): the number
of bytes the single-token reader consumes from the front of the slice — one
byte for the single-character tokens; the `i`, the digit run before the
terminating `e`, and the `e` itself for an integer; the length prefix, the
colon, and the declared number of payload bytes for a byte string.  `none`
where the reader does not produce a token with a well-defined consumption. -/
def specConsumed (slice : List Nat) : Option Nat :=
  match slice with
  | [] => none
  | b :: rest =>
    if b = 100 then some 1
    else if b = 108 then some 1
    else if b = 101 then some 1
    else if b = 105 then
      if (rest.takeWhile fun c => c != 101).length < rest.length then
        some (1 + (rest.takeWhile fun c => c != 101).length + 1)
      else none
    else if 48 ≤ b ∧ b ≤ 57 then
      match parseUsize ((b :: rest).takeWhile fun c => c != 58) with
      | some size => some (((b :: rest).takeWhile fun c => c != 58).length + 1 + size)
      | none => none
    else none

/-- A canonical integer literal body: an optional minus (not on zero), then a
canonical digit run. -/
def canonIntBody (ds : List Nat) : Bool :=
  match ds with
  | [] => false
  | c :: rest =>
    if c = 45 then canonDigits rest && decide (rest ≠ [48])
    else canonDigits (c :: rest)

/-- The head of the slice is in canonical form: integer literals have a
canonical decimal body and a terminating `e`; byte strings have a canonical
length prefix below `2^64`, a payload that fits in the slice, and ASCII
payload bytes. -/
def canonicalHead (slice : List Nat) : Bool :=
  match slice with
  | [] => false
  | b :: rest =>
    if b = 100 then true
    else if b = 108 then true
    else if b = 101 then true
    else if b = 105 then
      canonIntBody (rest.takeWhile fun c => c != 101) && rest.any fun c => c == 101
    else if 48 ≤ b ∧ b ≤ 57 then
      canonDigits ((b :: rest).takeWhile fun c => c != 58)
        && decide (digitsVal ((b :: rest).takeWhile fun c => c != 58) < 2 ^ 64)
        && decide (str_lenN (digitsVal ((b :: rest).takeWhile fun c => c != 58)) + 1
             + digitsVal ((b :: rest).takeWhile fun c => c != 58) ≤ (b :: rest).length)
        && (((b :: rest).drop
              (str_lenN (digitsVal ((b :: rest).takeWhile fun c => c != 58)) + 1)).take
              (digitsVal ((b :: rest).takeWhile fun c => c != 58))).all
            fun c => decide (c < 128)
    else false

theorem parseDigits_some {ds : List Nat} {bound v : Nat}
    (h : parseDigits ds bound = some v) :
    ds ≠ [] ∧ allDigits ds = true ∧ digitsVal ds = v ∧ digitsVal ds < bound := by
  rw [parseDigits] at h
  by_cases h1 : ds.isEmpty = true
  · rw [if_pos h1] at h
    exact absurd h (by simp)
  · rw [if_neg h1] at h
    by_cases h2 : allDigits ds = true
    · rw [if_pos h2] at h
      by_cases h3 : digitsVal ds < bound
      · rw [if_pos h3] at h
        exact ⟨by simpa [List.isEmpty_iff] using h1, h2, Option.some.inj h, h3⟩
      · rw [if_neg h3] at h
        exact absurd h (by simp)
    · rw [if_neg h2] at h
      exact absurd h (by simp)

theorem canonDigits_allDigits :
    ∀ ds : List Nat, canonDigits ds = true → allDigits ds = true ∧ ds ≠ []
  | [], h => by simp [canonDigits] at h
  | [c], h => by
    simp only [canonDigits, decide_eq_true_eq] at h
    exact ⟨by simp [allDigits]; omega, by simp⟩
  | c :: c2 :: rest, h => by
    simp only [canonDigits, Bool.and_eq_true, decide_eq_true_eq] at h
    refine ⟨?_, by simp⟩
    simp only [allDigits, List.all_cons, Bool.and_eq_true, decide_eq_true_eq]
    refine ⟨by omega, ?_⟩
    have := h.2
    simp only [allDigits, List.all_cons, Bool.and_eq_true, decide_eq_true_eq] at this
    exact ⟨this.1, this.2⟩

theorem canonDigits_pos :
    ∀ ds : List Nat, canonDigits ds = true → ds ≠ [48] → 1 ≤ digitsVal ds
  | [], h, _ => by simp [canonDigits] at h
  | [c], h, hne => by
    simp only [canonDigits, decide_eq_true_eq] at h
    have hc : c ≠ 48 := fun hcc => hne (by rw [hcc])
    simp [digitsVal]
    omega
  | c :: c2 :: rest, h, _ => by
    simp only [canonDigits, Bool.and_eq_true, decide_eq_true_eq] at h
    exact digitsVal_pos c (c2 :: rest) (by omega)

/-- A canonical integer body that parses as `n` is exactly the canonical
decimal rendering of `n`. -/
theorem canon_body_intToDec (ds : List Nat) (n : Int) (hc : canonIntBody ds = true)
    (hp : parseI32 ds = some n) : ds = intToDec n := by
  match ds with
  | [] => simp [canonIntBody] at hc
  | c :: rest =>
    rw [canonIntBody] at hc
    by_cases h45 : c = 45
    · subst h45
      rw [if_pos rfl, Bool.and_eq_true, decide_eq_true_eq] at hc
      rw [parseI32, if_neg (by omega : ¬ (45 : Nat) = 43), if_pos rfl] at hp
      rcases hd : parseDigits rest (2 ^ 31 + 1) with _ | v
      · rw [hd] at hp
        exact absurd hp (by simp)
      · rw [hd] at hp
        rw [Option.map_some'] at hp
        have hn : n = -Int.ofNat v := (Option.some.inj hp).symm
        obtain ⟨_, _, hdv, _⟩ := parseDigits_some hd
        have hrest : natToDec v = rest := by
          rw [← hdv]
          exact natToDec_digitsVal rest hc.1
        have hpos : 1 ≤ v := by
          rw [← hdv]
          exact canonDigits_pos rest hc.1 hc.2
        have hneg : n < 0 := by
          rw [hn, Int.ofNat_eq_natCast]
          omega
        rw [intToDec, if_pos hneg]
        have habs : n.natAbs = v := by
          rw [hn, Int.ofNat_eq_natCast]
          omega
        rw [habs, hrest]
    · rw [if_neg h45] at hc
      have hhead := canonDigits_allDigits (c :: rest) hc
      have hcd : 48 ≤ c ∧ c ≤ 57 := by
        have := hhead.1
        simp only [allDigits, List.all_cons, Bool.and_eq_true, decide_eq_true_eq] at this
        exact this.1
      rw [parseI32, if_neg (by omega : ¬ c = 43), if_neg h45] at hp
      rcases hd : parseDigits (c :: rest) (2 ^ 31) with _ | v
      · rw [hd] at hp
        exact absurd hp (by simp)
      · rw [hd] at hp
        rw [Option.map_some'] at hp
        have hn : n = Int.ofNat v := (Option.some.inj hp).symm
        obtain ⟨_, _, hdv, _⟩ := parseDigits_some hd
        have hnn : ¬ n < 0 := by
          rw [hn, Int.ofNat_eq_natCast]
          omega
        rw [intToDec, if_neg hnn]
        have habs : n.natAbs = v := by
          rw [hn, Int.ofNat_eq_natCast]
          omega
        rw [habs, ← hdv, natToDec_digitsVal (c :: rest) hc]

theorem takeWhile_lt_of_any (rest : List Nat)
    (h : (rest.any fun c => c == 101) = true) :
    (rest.takeWhile fun c => c != 101).length < rest.length := by
  induction rest with
  | nil => simp at h
  | cons c cs ih =>
    by_cases hc : c = 101
    · subst hc
      simp [List.takeWhile_cons]
    · have h2 : (cs.any fun c => c == 101) = true := by
        simp only [List.any_cons, Bool.or_eq_true] at h
        rcases h with h | h
        · exact absurd (by simpa using h) hc
        · exact h
      simp only [List.takeWhile_cons, if_pos (by simpa using hc : (c != 101) = true)]
      simp only [List.length_cons]
      have := ih h2
      omega

/-- C3, counterexample: the shift computed from a token does not always equal
the bytes the reader consumed.  On "i007e" the reader consumes five bytes to
produce Integer(7), but the shift recomputed from the value is three — the
claim explicitly includes integers written with leading zeros, where the code
drifts. -/
theorem claim_C3_counterexample :
    lexer.tokenize [105, 48, 48, 55, 101] = .ok (.Integer 7) ∧
    specConsumed [105, 48, 48, 55, 101] = some 5 ∧
    (lexer.Token.Integer 7).shift = 3 ∧ (3 : Nat) ≠ 5 :=
  ⟨rfl, rfl, rfl, by omega⟩

/-- C3 (amended): the recomputed shift equals the reader's consumption for
every token read from input whose head is canonical — integer literals in
canonical decimal form (no leading zeros, no plus sign, no minus zero) with a
terminating `e`, and byte strings with a canonical length prefix and ASCII
payload.  (With leading zeros or non-ASCII payload bytes the two drift, as the
counterexample shows.) -/
theorem claim_C3_shift_consumption (slice : List Nat) (t : lexer.Token)
    (ht : lexer.tokenize slice = .ok t) (hc : canonicalHead slice = true) :
    specConsumed slice = some t.shift := by
  rcases slice with _ | ⟨b, rest⟩
  · simp [lexer.tokenize] at ht
  · simp only [lexer.tokenize] at ht
    simp only [canonicalHead] at hc
    simp only [specConsumed]
    by_cases h100 : b = 100
    · rw [if_pos h100] at ht ⊢
      injection ht with hteq
      subst hteq
      rfl
    · rw [if_neg h100] at ht hc ⊢
      by_cases h108 : b = 108
      · rw [if_pos h108] at ht ⊢
        injection ht with hteq
        subst hteq
        rfl
      · rw [if_neg h108] at ht hc ⊢
        by_cases h101 : b = 101
        · rw [if_pos h101] at ht ⊢
          injection ht with hteq
          subst hteq
          rfl
        · rw [if_neg h101] at ht hc ⊢
          by_cases h105 : b = 105
          · rw [if_pos h105] at ht hc ⊢
            rw [Bool.and_eq_true] at hc
            rw [lexer.read_int] at ht
            have hread : lexer.read_until rest 101
                = rest.takeWhile fun c => c != 101 := rfl
            rw [hread] at ht
            rcases hpi : parseI32 (rest.takeWhile fun c => c != 101) with _ | n
            · rw [hpi] at ht
              simp at ht
            · rw [hpi] at ht
              simp only at ht
              injection ht with hteq
              subst hteq
              have hbody : (rest.takeWhile fun c => c != 101) = intToDec n :=
                canon_body_intToDec _ n hc.1 hpi
              rw [if_pos (takeWhile_lt_of_any rest hc.2)]
              rw [hbody]
              rfl
          · rw [if_neg h105] at ht hc ⊢
            by_cases hdig : 48 ≤ b ∧ b ≤ 57
            · rw [if_pos hdig] at ht hc ⊢
              have hcc := hc
              rw [Bool.and_eq_true, Bool.and_eq_true, Bool.and_eq_true] at hcc
              obtain ⟨⟨⟨hc1, hc2⟩, hc3⟩, hc4⟩ := hcc
              rw [decide_eq_true_eq] at hc2 hc3
              have hpre_ne : ((b :: rest).takeWhile fun c => c != 58) ≠ [] :=
                (canonDigits_allDigits _ hc1).2
              have hpre_cons : ((b :: rest).takeWhile fun c => c != 58)
                  = b :: (rest.takeWhile fun c => c != 58) := by
                rw [List.takeWhile_cons, if_pos (by simp; omega)]
              have hpU : parseUsize ((b :: rest).takeWhile fun c => c != 58)
                  = some (digitsVal ((b :: rest).takeWhile fun c => c != 58)) := by
                rw [hpre_cons, parseUsize, if_neg (by omega : ¬ b = 43), ← hpre_cons]
                rw [parseDigits, if_neg (by simp [List.isEmpty_iff, hpre_ne])]
                rw [if_pos (canonDigits_allDigits _ hc1).1, if_pos hc2]
              have hrl : lexer.read_len (b :: rest)
                  = .ok (digitsVal ((b :: rest).takeWhile fun c => c != 58)) := by
                rw [lexer.read_len]
                have hru : lexer.read_until (b :: rest) 58
                    = (b :: rest).takeWhile fun c => c != 58 := rfl
                rw [hru, hpU]
              have hrbs : lexer.read_byte_string (b :: rest)
                  = .ok ((((b :: rest).drop
                      (str_lenN (digitsVal ((b :: rest).takeWhile fun c => c != 58)) + 1)).take
                      (digitsVal ((b :: rest).takeWhile fun c => c != 58)))) := by
                rw [lexer.read_byte_string, hrl]
                simp only
                rw [if_pos (by omega)]
                rw [flatMap_latin1_ascii _ (by
                  intro x hx
                  rw [List.all_eq_true] at hc4
                  have := hc4 x hx
                  rwa [decide_eq_true_eq] at this)]
              rw [hrbs] at ht
              simp only at ht
              injection ht with hteq
              subst hteq
              rw [hpU]
              have hplen : ((((b :: rest).drop
                  (str_lenN (digitsVal ((b :: rest).takeWhile fun c => c != 58)) + 1)).take
                  (digitsVal ((b :: rest).takeWhile fun c => c != 58)))).length
                  = digitsVal ((b :: rest).takeWhile fun c => c != 58) := by
                rw [List.length_take, List.length_drop]
                omega
              have hpre_len : ((b :: rest).takeWhile fun c => c != 58).length
                  = str_lenN (digitsVal ((b :: rest).takeWhile fun c => c != 58)) := by
                conv_lhs => rw [← natToDec_digitsVal _ hc1]
                rfl
              simp only [lexer.Token.shift, hplen, hpre_len, Option.some.injEq]
              omega
            · rw [if_neg hdig] at hc
              simp at hc

/-- C3, witness: on the canonical byte string "3:abc" the reader consumes five
bytes and the token's shift is five. -/
theorem claim_C3_witness :
    lexer.tokenize [51, 58, 97, 98, 99] = .ok (.ByteString [97, 98, 99]) ∧
    canonicalHead [51, 58, 97, 98, 99] = true ∧
    specConsumed [51, 58, 97, 98, 99]
      = some (lexer.Token.ByteString [97, 98, 99]).shift := by
  refine ⟨rfl, by decide, ?_⟩
  exact claim_C3_shift_consumption [51, 58, 97, 98, 99] (.ByteString [97, 98, 99])
    rfl (by decide)

end Bensor
